import Mathlib

/-
Verification of the monkey-interpreter-go core: the token model
(token/token.go), the AST with its String() renderings (ast package),
the Pratt parser (parser/parser.go) and the environment (object package).

The parser is embedded as a set of computable functions over an explicit
parser state.  The lexer is replaced by the list of tokens it would
produce: the state holds the two look-ahead tokens `curToken`/`peekToken`
and the list `rest` of tokens not yet handed out; once the list is
exhausted the token source yields EOF tokens forever, exactly as the Go
lexer does.  Go's mutual recursion is made total with an explicit fuel
argument: `none` means the fuel ran out, and a separate theorem shows
that enough fuel always exists.  A Go `nil` result of a sub-parse is the
inner `Option`.
-/

namespace Monkey

/-- Token kinds, from token/token.go. In Go `TokenType` is a string; the
embedding uses an enumeration together with `TokenType.str`, the string
value of each constant, which is what `%s` formatting prints. -/
inductive TokenType where
  | ILLEGAL | EOF | IDENT | INT | STRING
  | ASSIGN | PLUS | MINUS | BANG | ASTERISK | SLASH
  | LT | GT | EQ | NOT_EQ
  | COMMA | SEMICOLON | LPAREN | RPAREN | LBRACE | RBRACE
  | FUNCTION | LET | TRUE | FALSE | IF | ELSE | RETURN
deriving DecidableEq, Repr

/-- The string value of each token-type constant in token/token.go. -/
def TokenType.str : TokenType → String
  | .ILLEGAL => "ILLEGAL"
  | .EOF => "EOF"
  | .IDENT => "IDENT"
  | .INT => "INT"
  | .STRING => "STRING"
  | .ASSIGN => "="
  | .PLUS => "+"
  | .MINUS => "-"
  | .BANG => "!"
  | .ASTERISK => "*"
  | .SLASH => "/"
  | .LT => "<"
  | .GT => ">"
  | .EQ => "=="
  | .NOT_EQ => "!="
  | .COMMA => ","
  | .SEMICOLON => ";"
  | .LPAREN => "("
  | .RPAREN => ")"
  | .LBRACE => "\x7b"
  | .RBRACE => "\x7d"
  | .FUNCTION => "FUNCTION"
  | .LET => "LET"
  | .TRUE => "TRUE"
  | .FALSE => "FALSE"
  | .IF => "IF"
  | .ELSE => "ELSE"
  | .RETURN => "RETURN"

/-- A token: kind plus the exact source substring (token/token.go). -/
structure Token where
  type : TokenType
  literal : String
deriving DecidableEq, Repr

/-- The token the lexer produces at end of input, forever. -/
def eofToken : Token := ⟨.EOF, ""⟩

/-- ast.Identifier. -/
structure Identifier where
  token : Token
  value : String
deriving DecidableEq, Repr

/- The AST of the ast package.  Go expression/statement fields typed as
interfaces or pointers can be nil; such fields are `Option` here.  The
elements of a CallExpression argument slice can themselves be nil
(parser.go appends the raw result of parseExpression), hence
`List (Option Expression)`. -/
mutual
inductive Expression where
  | identifier : Token → String → Expression
  | integerLiteral : Token → Int → Expression
  | stringLiteral : Token → String → Expression
  | boolean : Token → Bool → Expression
  | prefixExpression : Token → String → Option Expression → Expression
  | infixExpression : Token → Option Expression → String → Option Expression → Expression
  | ifExpression : Token → Option Expression → BlockStatement → Option BlockStatement → Expression
  | functionLiteral : Token → Option (List Identifier) → BlockStatement → Expression
  | callExpression : Token → Option Expression → Option (List (Option Expression)) → Expression

inductive Statement where
  | letStatement : Token → Identifier → Option Expression → Statement
  | returnStatement : Token → Option Expression → Statement
  | expressionStatement : Token → Option Expression → Statement

inductive BlockStatement where
  | mk : Token → List Statement → BlockStatement
end

/-- ast.Program: the root node, an ordered list of statements. -/
structure Program where
  statements : List Statement

/-- strings.Join(xs, ", ") from the Go standard library. -/
def joinComma : List String → String
  | [] => ""
  | [x] => x
  | x :: rest => x ++ ", " ++ joinComma rest

/-- Identifier.String() is the Value field; this maps a parameter list
(nil or not) to the strings joined by FunctionLiteral.String(). -/
def identListStrings : Option (List Identifier) → List String
  | none => []
  | some xs => xs.map (fun i => i.value)

/- The String() methods of the ast package.  A nil Go sub-expression
would make String() dereference a nil pointer; that case renders as ""
here (Go's explicit nil checks in LetStatement/ReturnStatement/
ExpressionStatement String() also write nothing), and no theorem below
evaluates String() on a node with a nil child except through those
checks.  StringLiteral has no String() definition in the sources under
src/; following the spec's treatment of the other literal nodes it
renders as its token literal (it is exercised by no claim). -/
mutual
def exprString : Expression → String
  | .identifier _ value => value
  | .integerLiteral tok _ => tok.literal
  | .stringLiteral tok _ => tok.literal
  | .boolean tok _ => tok.literal
  | .prefixExpression _ op right => "(" ++ op ++ optExprString right ++ ")"
  | .infixExpression _ left op right =>
      "(" ++ optExprString left ++ " " ++ op ++ " " ++ optExprString right ++ ")"
  | .ifExpression _ cond cons alt =>
      "if" ++ optExprString cond ++ " " ++ blockString cons ++
        (match alt with
         | some a => "else " ++ blockString a
         | none => "")
  | .functionLiteral tok params body =>
      tok.literal ++ "(" ++ joinComma (identListStrings params) ++ ")" ++ blockString body
  | .callExpression _ function args =>
      optExprString function ++ "(" ++ joinComma (optExprListStrings args) ++ ")"

def optExprString : Option Expression → String
  | some e => exprString e
  | none => ""

def optExprStrings : List (Option Expression) → List String
  | [] => []
  | x :: rest => optExprString x :: optExprStrings rest

def optExprListStrings : Option (List (Option Expression)) → List String
  | none => []
  | some xs => optExprStrings xs

def stmtString : Statement → String
  | .letStatement tok name value => tok.literal ++ " " ++ name.value ++ " = " ++ optExprString value ++ ";"
  | .returnStatement tok value => tok.literal ++ " " ++ optExprString value ++ ";"
  | .expressionStatement _ e => optExprString e

def stmtsString : List Statement → String
  | [] => ""
  | s :: rest => stmtString s ++ stmtsString rest

def blockString : BlockStatement → String
  | .mk _ stmts => stmtsString stmts
end

/-- ast.Program.String(): concatenation of the statement strings. -/
def programString (pr : Program) : String := stmtsString pr.statements

/-! ## Parser state and non-recursive helpers (parser/parser.go) -/

/-- The parser state: the two look-ahead tokens, the tokens the lexer
has not yet produced, and the accumulated error strings. -/
structure Parser where
  rest : List Token
  curToken : Token
  peekToken : Token
  errors : List String
deriving DecidableEq, Repr

/-- Parser.nextToken(): curToken := peekToken, peekToken := l.NextToken().
Once `rest` is exhausted the lexer yields EOF tokens forever. -/
def nextToken (p : Parser) : Parser :=
  { p with curToken := p.peekToken,
           peekToken := p.rest.headD eofToken,
           rest := p.rest.tail }

/-- parser.New: a fresh parser with empty error list that has read two
tokens, so curToken and peekToken are the first two tokens. -/
def newParser (ts : List Token) : Parser :=
  nextToken (nextToken ⟨ts, eofToken, eofToken, []⟩)

/- The precedence constants of parser/parser.go (iota, starting at 1).
`PREC6` is the level the source calls by the name of the unary-operator
position (used by parsePrefixExpression). -/
def LOWEST : Nat := 1
def EQUALS : Nat := 2
def LESSGREATER : Nat := 3
def SUM : Nat := 4
def PRODUCT : Nat := 5
def PREC6 : Nat := 6
def CALL : Nat := 7

/-- The `precedences` table; absent token types default to LOWEST. -/
def precedences : TokenType → Nat
  | .EQ => EQUALS
  | .NOT_EQ => EQUALS
  | .LT => LESSGREATER
  | .GT => LESSGREATER
  | .PLUS => SUM
  | .MINUS => SUM
  | .SLASH => PRODUCT
  | .ASTERISK => PRODUCT
  | .LPAREN => CALL
  | _ => LOWEST

def peekPrecedence (p : Parser) : Nat := precedences p.peekToken.type

def curPrecedence (p : Parser) : Nat := precedences p.curToken.type

/-- Parser.peekError: records the expectPeek mismatch message. -/
def peekError (t : TokenType) (p : Parser) : Parser :=
  { p with errors := p.errors ++
      ["expected next token to be " ++ t.str ++ ", got " ++ p.peekToken.type.str ++ " instead"] }

/-- Parser.noPrefixParseFnError. -/
def noPrefixParseFnError (t : TokenType) (p : Parser) : Parser :=
  { p with errors := p.errors ++ ["no prefix parse function for " ++ t.str ++ " found"] }

/-- Parser.expectPeek: advance when peekToken has the wanted type, else
record a peekError and stay put. -/
def expectPeek (t : TokenType) (p : Parser) : Bool × Parser :=
  if p.peekToken.type = t then (true, nextToken p)
  else (false, peekError t p)

/-! ## Go strconv.ParseInt(s, 0, 64), as called by parseIntegerLiteral -/

/-- Go strconv's lower(c) = c | ('x'-'X'), on the character's code. -/
def goLowerN (c : Char) : Nat := c.toNat ||| 0x20

/-- One digit of strconv.ParseUint: '0'-'9' or a letter (case folded),
else a syntax error. -/
def goDigitVal (c : Char) : Option Nat :=
  if '0' ≤ c ∧ c ≤ '9' then some (c.toNat - '0'.toNat)
  else if 'a'.toNat ≤ goLowerN c ∧ goLowerN c ≤ 'z'.toNat then some (goLowerN c - 'a'.toNat + 10)
  else none

/-- The digit loop of strconv.ParseUint with base 0 handed down
(underscores are skipped; a digit at or above the base is a syntax
error).  The accumulated value is kept exact; the 64-bit range check
happens in `goParseInt64`, which rejects every value ParseUint or
ParseInt would flag as out of range. -/
def goParseDigits (base : Nat) : List Char → Nat → Option Nat
  | [], acc => some acc
  | c :: rest, acc =>
    if c = '_' then goParseDigits base rest acc
    else match goDigitVal c with
      | none => none
      | some d => if base ≤ d then none else goParseDigits base rest (acc * base + d)

/-- The state loop of strconv's underscoreOK: `saw` is '^' at the start,
'0' after a digit or base prefix, '_' after an underscore, '!' otherwise. -/
def underscoreLoop (hex : Bool) (saw : Char) : List Char → Bool
  | [] => saw != '_'
  | c :: rest =>
    if ('0' ≤ c ∧ c ≤ '9') ∨ (hex ∧ 'a'.toNat ≤ goLowerN c ∧ goLowerN c ≤ 'f'.toNat) then
      underscoreLoop hex '0' rest
    else if c = '_' then
      (saw == '0') && underscoreLoop hex '_' rest
    else
      (saw != '_') && underscoreLoop hex '!' rest

/-- strconv's underscoreOK: underscores may only sit between digits or
right after a base prefix. -/
def underscoreOK (s : List Char) : Bool :=
  let s1 := match s with
    | c :: rest => if c = '-' ∨ c = '+' then rest else s
    | [] => []
  match s1 with
  | a :: b :: rest =>
    if a = '0' ∧ (goLowerN b = 'b'.toNat ∨ goLowerN b = 'o'.toNat ∨ goLowerN b = 'x'.toNat) then
      underscoreLoop (goLowerN b = 'x'.toNat) '0' rest
    else underscoreLoop false '^' s1
  | _ => underscoreLoop false '^' s1

/-- strconv.ParseInt(s, 0, 64): optional sign, base chosen by the 0b/0o/0x
prefix (a bare leading 0 means octal), then the digit run; `none` for
every error (syntax or 64-bit range). -/
def goParseInt64 (s : String) : Option Int :=
  match s.toList with
  | [] => none
  | c0 :: rest0 =>
    let neg : Bool := c0 = '-'
    let digits : List Char := if c0 = '+' ∨ c0 = '-' then rest0 else c0 :: rest0
    match digits with
    | [] => none
    | d0 :: drest =>
      let bb : Nat × List Char :=
        if d0 = '0' then
          match drest with
          | d1 :: d2 :: dr =>
            if goLowerN d1 = 'b'.toNat then (2, d2 :: dr)
            else if goLowerN d1 = 'o'.toNat then (8, d2 :: dr)
            else if goLowerN d1 = 'x'.toNat then (16, d2 :: dr)
            else (8, drest)
          | _ => (8, drest)
        else (10, digits)
      match goParseDigits bb.1 bb.2 0 with
      | none => none
      | some un =>
        if bb.2.contains '_' ∧ ¬ underscoreOK digits then none
        else if neg then
          (if un ≤ 2 ^ 63 then some (-(un : Int)) else none)
        else
          (if un < 2 ^ 63 then some ((un : Int)) else none)

/-- Go fmt's %q on the literal.  The interpreter's lexer only produces
ASCII digit runs here, for which %q is plain double quotes; escaping of
quotes, backslashes and control characters is reproduced, exotic
non-printables are out of scope of every claim. -/
def goQuoteChar (c : Char) : String :=
  if c = '"' then "\\\""
  else if c = '\\' then "\\\\"
  else if c = '\n' then "\\n"
  else if c = '\t' then "\\t"
  else String.singleton c

def goQuote (s : String) : String :=
  "\"" ++ String.join (s.toList.map goQuoteChar) ++ "\""

/-! ## The non-recursive parselets -/

/-- Parser.parseIdentifier. -/
def parseIdentifier (p : Parser) : Expression :=
  .identifier p.curToken p.curToken.literal

/-- Parser.parseBoolean: Value is curTokenIs(token.TRUE). -/
def parseBoolean (p : Parser) : Expression :=
  .boolean p.curToken (p.curToken.type = .TRUE)

/-- Parser.parseStringLiteral. -/
def parseStringLiteral (p : Parser) : Expression :=
  .stringLiteral p.curToken p.curToken.literal

/-- Parser.parseIntegerLiteral: strconv.ParseInt(lit, 0, 64); on error
record `could not parse "<lit>" as integer` and return nil. -/
def parseIntegerLiteral (p : Parser) : Option Expression × Parser :=
  match goParseInt64 p.curToken.literal with
  | some v => (some (.integerLiteral p.curToken v), p)
  | none =>
    (none, { p with errors := p.errors ++
        ["could not parse " ++ goQuote p.curToken.literal ++ " as integer"] })

/-! ## The recursive parser

Each Go loop is a recursive helper (`...Loop`).  Every function takes a
fuel argument consumed one step per call; `none` is fuel exhaustion,
the inner `Option` is a Go nil result.  The prefix/infix parse-function
maps of parser.New are inlined as the dispatch chains below (exactly the
registered token types). -/

/-- True when parser.New registered an infix parse function that is
parseInfixExpression for this token type. -/
def isBinaryOp (t : TokenType) : Bool :=
  t == .PLUS || t == .MINUS || t == .SLASH || t == .ASTERISK ||
  t == .EQ || t == .NOT_EQ || t == .LT || t == .GT

/-- True when parser.New registered a prefix parse function for this
token type. -/
def hasPrefixFn (t : TokenType) : Bool :=
  t == .IDENT || t == .INT || t == .BANG || t == .MINUS || t == .TRUE ||
  t == .FALSE || t == .LPAREN || t == .IF || t == .FUNCTION || t == .STRING

mutual

/-- The statement loop of Parser.ParseProgram: until curToken is EOF,
parse a statement, append it when non-nil, advance. -/
def parseProgramLoop : Nat → Parser → List Statement → Option (List Statement × Parser)
  | 0, _, _ => none
  | n + 1, p, acc =>
    if p.curToken.type ≠ .EOF then
      match parseStatement n p with
      | none => none
      | some (stmt, p1) =>
        let acc' := match stmt with
          | some s => acc ++ [s]
          | none => acc
        parseProgramLoop n (nextToken p1) acc'
    else some (acc, p)

/-- Parser.parseStatement: dispatch on curToken. -/
def parseStatement : Nat → Parser → Option (Option Statement × Parser)
  | 0, _ => none
  | n + 1, p =>
    if p.curToken.type = .LET then parseLetStatement n p
    else if p.curToken.type = .RETURN then parseReturnStatement n p
    else parseExpressionStatement n p

/-- Parser.parseLetStatement. -/
def parseLetStatement : Nat → Parser → Option (Option Statement × Parser)
  | 0, _ => none
  | n + 1, p =>
    let tok := p.curToken
    match expectPeek .IDENT p with
    | (false, p1) => some (none, p1)
    | (true, p1) =>
      let name : Identifier := ⟨p1.curToken, p1.curToken.literal⟩
      match expectPeek .ASSIGN p1 with
      | (false, p2) => some (none, p2)
      | (true, p2) =>
        let p3 := nextToken p2
        match parseExpression n p3 LOWEST with
        | none => none
        | some (value, p4) =>
          let p5 := if p4.peekToken.type = .SEMICOLON then nextToken p4 else p4
          some (some (.letStatement tok name value), p5)

/-- Parser.parseReturnStatement. -/
def parseReturnStatement : Nat → Parser → Option (Option Statement × Parser)
  | 0, _ => none
  | n + 1, p =>
    let tok := p.curToken
    let p1 := nextToken p
    match parseExpression n p1 LOWEST with
    | none => none
    | some (rv, p2) =>
      let p3 := if p2.peekToken.type = .SEMICOLON then nextToken p2 else p2
      some (some (.returnStatement tok rv), p3)

/-- Parser.parseExpressionStatement. -/
def parseExpressionStatement : Nat → Parser → Option (Option Statement × Parser)
  | 0, _ => none
  | n + 1, p =>
    let tok := p.curToken
    match parseExpression n p LOWEST with
    | none => none
    | some (e, p1) =>
      let p2 := if p1.peekToken.type = .SEMICOLON then nextToken p1 else p1
      some (some (.expressionStatement tok e), p2)

/-- Parser.parseExpression: run the registered prefix parse function
(or record noPrefixParseFnError and return nil), then the infix loop. -/
def parseExpression : Nat → Parser → Nat → Option (Option Expression × Parser)
  | 0, _, _ => none
  | n + 1, p, precedence =>
    if p.curToken.type = .IDENT then
      parseExpressionLoop n p (some (parseIdentifier p)) precedence
    else if p.curToken.type = .INT then
      let r := parseIntegerLiteral p
      parseExpressionLoop n r.2 r.1 precedence
    else if p.curToken.type = .BANG ∨ p.curToken.type = .MINUS then
      match parsePrefixExpression n p with
      | none => none
      | some (l, p1) => parseExpressionLoop n p1 l precedence
    else if p.curToken.type = .TRUE ∨ p.curToken.type = .FALSE then
      parseExpressionLoop n p (some (parseBoolean p)) precedence
    else if p.curToken.type = .LPAREN then
      match parseGroupedExpression n p with
      | none => none
      | some (l, p1) => parseExpressionLoop n p1 l precedence
    else if p.curToken.type = .IF then
      match parseIfExpression n p with
      | none => none
      | some (l, p1) => parseExpressionLoop n p1 l precedence
    else if p.curToken.type = .FUNCTION then
      match parseFunctionLiteral n p with
      | none => none
      | some (l, p1) => parseExpressionLoop n p1 l precedence
    else if p.curToken.type = .STRING then
      parseExpressionLoop n p (some (parseStringLiteral p)) precedence
    else
      some (none, noPrefixParseFnError p.curToken.type p)

/-- The infix loop of Parser.parseExpression: while peekToken is not a
semicolon and binds tighter than `precedence`, advance and run the
registered infix parse function (stop when none is registered). -/
def parseExpressionLoop : Nat → Parser → Option Expression → Nat → Option (Option Expression × Parser)
  | 0, _, _, _ => none
  | n + 1, p, left, precedence =>
    if p.peekToken.type ≠ .SEMICOLON ∧ precedence < peekPrecedence p then
      if isBinaryOp p.peekToken.type then
        match parseInfixExpression n (nextToken p) left with
        | none => none
        | some (l1, p1) => parseExpressionLoop n p1 l1 precedence
      else if p.peekToken.type = .LPAREN then
        match parseCallExpression n (nextToken p) left with
        | none => none
        | some (l1, p1) => parseExpressionLoop n p1 l1 precedence
      else some (left, p)
    else some (left, p)

/-- Parser.parsePrefixExpression: keep operator, advance, parse the
right side at the unary precedence level. -/
def parsePrefixExpression : Nat → Parser → Option (Option Expression × Parser)
  | 0, _ => none
  | n + 1, p =>
    let tok := p.curToken
    let op := p.curToken.literal
    match parseExpression n (nextToken p) PREC6 with
    | none => none
    | some (right, p2) => some (some (.prefixExpression tok op right), p2)

/-- Parser.parseInfixExpression: keep operator and its precedence,
advance, parse the right side at that precedence (left-associative). -/
def parseInfixExpression : Nat → Parser → Option Expression → Option (Option Expression × Parser)
  | 0, _, _ => none
  | n + 1, p, left =>
    let tok := p.curToken
    let op := p.curToken.literal
    let precedence := curPrecedence p
    match parseExpression n (nextToken p) precedence with
    | none => none
    | some (right, p2) => some (some (.infixExpression tok left op right), p2)

/-- Parser.parseGroupedExpression. -/
def parseGroupedExpression : Nat → Parser → Option (Option Expression × Parser)
  | 0, _ => none
  | n + 1, p =>
    match parseExpression n (nextToken p) LOWEST with
    | none => none
    | some (e, p2) =>
      match expectPeek .RPAREN p2 with
      | (false, p3) => some (none, p3)
      | (true, p3) => some (e, p3)

/-- Parser.parseIfExpression. -/
def parseIfExpression : Nat → Parser → Option (Option Expression × Parser)
  | 0, _ => none
  | n + 1, p =>
    let tok := p.curToken
    match expectPeek .LPAREN p with
    | (false, p1) => some (none, p1)
    | (true, p1) =>
      match parseExpression n (nextToken p1) LOWEST with
      | none => none
      | some (cond, p3) =>
        match expectPeek .RPAREN p3 with
        | (false, p4) => some (none, p4)
        | (true, p4) =>
          match expectPeek .LBRACE p4 with
          | (false, p5) => some (none, p5)
          | (true, p5) =>
            match parseBlockStatement n p5 with
            | none => none
            | some (cons, p6) =>
              if p6.peekToken.type = .ELSE then
                match expectPeek .LBRACE (nextToken p6) with
                | (false, p8) => some (none, p8)
                | (true, p8) =>
                  match parseBlockStatement n p8 with
                  | none => none
                  | some (alt, p9) =>
                    some (some (.ifExpression tok cond cons (some alt)), p9)
              else some (some (.ifExpression tok cond cons none), p6)

/-- Parser.parseBlockStatement: advance past '{', then the loop. -/
def parseBlockStatement : Nat → Parser → Option (BlockStatement × Parser)
  | 0, _ => none
  | n + 1, p =>
    let tok := p.curToken
    match parseBlockLoop n (nextToken p) [] with
    | none => none
    | some (stmts, p2) => some (.mk tok stmts, p2)

/-- The loop of Parser.parseBlockStatement: until '}' or EOF, parse a
statement, append when non-nil, advance. -/
def parseBlockLoop : Nat → Parser → List Statement → Option (List Statement × Parser)
  | 0, _, _ => none
  | n + 1, p, acc =>
    if p.curToken.type ≠ .RBRACE ∧ p.curToken.type ≠ .EOF then
      match parseStatement n p with
      | none => none
      | some (stmt, p1) =>
        let acc' := match stmt with
          | some s => acc ++ [s]
          | none => acc
        parseBlockLoop n (nextToken p1) acc'
    else some (acc, p)

/-- Parser.parseFunctionLiteral. -/
def parseFunctionLiteral : Nat → Parser → Option (Option Expression × Parser)
  | 0, _ => none
  | n + 1, p =>
    let tok := p.curToken
    match expectPeek .LPAREN p with
    | (false, p1) => some (none, p1)
    | (true, p1) =>
      match parseFunctionParameters n p1 with
      | none => none
      | some (params, p2) =>
        match expectPeek .LBRACE p2 with
        | (false, p3) => some (none, p3)
        | (true, p3) =>
          match parseBlockStatement n p3 with
          | none => none
          | some (body, p4) => some (some (.functionLiteral tok params body), p4)

/-- Parser.parseFunctionParameters. -/
def parseFunctionParameters : Nat → Parser → Option (Option (List Identifier) × Parser)
  | 0, _ => none
  | n + 1, p =>
    if p.peekToken.type = .RPAREN then some (some [], nextToken p)
    else
      let p1 := nextToken p
      parseFunctionParametersLoop n p1 [⟨p1.curToken, p1.curToken.literal⟩]

/-- The comma loop of Parser.parseFunctionParameters, then expectPeek ')'. -/
def parseFunctionParametersLoop : Nat → Parser → List Identifier → Option (Option (List Identifier) × Parser)
  | 0, _, _ => none
  | n + 1, p, acc =>
    if p.peekToken.type = .COMMA then
      let p1 := nextToken (nextToken p)
      parseFunctionParametersLoop n p1 (acc ++ [⟨p1.curToken, p1.curToken.literal⟩])
    else
      match expectPeek .RPAREN p with
      | (true, p1) => some (some acc, p1)
      | (false, p1) => some (none, p1)

/-- Parser.parseCallExpression: the node always carries the argument
list parseExpressionList produced, nil included. -/
def parseCallExpression : Nat → Parser → Option Expression → Option (Option Expression × Parser)
  | 0, _, _ => none
  | n + 1, p, function =>
    let tok := p.curToken
    match parseExpressionList n p .RPAREN with
    | none => none
    | some (args, p1) => some (some (.callExpression tok function args), p1)

/-- Parser.parseExpressionList. -/
def parseExpressionList : Nat → Parser → TokenType → Option (Option (List (Option Expression)) × Parser)
  | 0, _, _ => none
  | n + 1, p, endT =>
    if p.peekToken.type = endT then some (some [], nextToken p)
    else
      match parseExpression n (nextToken p) LOWEST with
      | none => none
      | some (e, p2) => parseExpressionListLoop n p2 [e] endT

/-- The comma loop of Parser.parseExpressionList, then expectPeek end. -/
def parseExpressionListLoop : Nat → Parser → List (Option Expression) → TokenType → Option (Option (List (Option Expression)) × Parser)
  | 0, _, _, _ => none
  | n + 1, p, acc, endT =>
    if p.peekToken.type = .COMMA then
      match parseExpression n (nextToken (nextToken p)) LOWEST with
      | none => none
      | some (e, p2) => parseExpressionListLoop n p2 (acc ++ [e]) endT
    else
      match expectPeek endT p with
      | (true, p1) => some (some acc, p1)
      | (false, p1) => some (none, p1)

end

/-- Parser.ParseProgram over the tokens `ts`, also returning the final
parser state (whose `errors` field is what Parser.Errors() reports). -/
def parseProgramWithState (fuel : Nat) (ts : List Token) : Option (Program × Parser) :=
  match parseProgramLoop fuel (newParser ts) [] with
  | none => none
  | some (stmts, p) => some (⟨stmts⟩, p)

/-- Parser.ParseProgram: just the AST. -/
def parseProgram (fuel : Nat) (ts : List Token) : Option Program :=
  (parseProgramWithState fuel ts).map (fun q => q.1)

/-- Parser.Errors() after ParseProgram. -/
def parseErrors (fuel : Nat) (ts : List Token) : Option (List String) :=
  (parseProgramWithState fuel ts).map (fun q => q.2.errors)

/-! ## Runtime values and environments (object package)

Go's `map[string]Object` store is an association list with unique keys
kept by `storeSet`; mutation of the current frame becomes returning the
updated frame, whose `outer` pointer is untouched. -/

mutual
inductive Object where
  | integer : Int → Object
  | boolean : Bool → Object
  | null : Object
  | returnValue : Object → Object
  | error : String → Object
  | function : List Identifier → BlockStatement → Environment → Object
  | stringObj : String → Object

inductive Environment where
  | mk : List (String × Object) → Option Environment → Environment
end

/-- Reading one frame's `store` map. -/
def storeGet : List (String × Object) → String → Option Object
  | [], _ => none
  | (k, v) :: rest, name => if k = name then some v else storeGet rest name

/-- Writing one frame's `store` map: replace the binding or add it. -/
def storeSet : List (String × Object) → String → Object → List (String × Object)
  | [], name, val => [(name, val)]
  | (k, v) :: rest, name, val =>
    if k = name then (k, val) :: rest else (k, v) :: storeSet rest name val

/-- The `store` field. -/
def Environment.store : Environment → List (String × Object)
  | .mk s _ => s

/-- The `outer` field. -/
def Environment.outer : Environment → Option Environment
  | .mk _ o => o

/-- object.NewEnvironment: empty store, no outer frame. -/
def NewEnvironment : Environment := .mk [] none

/-- object.NewEnclosedEnvironment. -/
def NewEnclosedEnvironment (outer : Environment) : Environment := .mk [] (some outer)

/-- Environment.Get: the current frame's store first; only when the name
is absent there and an outer frame exists, recurse outward. -/
def Environment.Get : Environment → String → Option Object
  | .mk store outer, name =>
    match storeGet store name with
    | some v => some v
    | none =>
      match outer with
      | some o => o.Get name
      | none => none

/-- Environment.Set: write the current frame's store, return the value. -/
def Environment.Set : Environment → String → Object → Environment × Object
  | .mk store outer, name, val => (.mk (storeSet store name val) outer, val)

/-- Whether any frame of the chain binds the name. -/
def chainBinds : Environment → String → Bool
  | .mk store outer, name =>
    (storeGet store name).isSome ||
      (match outer with
       | some o => chainBinds o name
       | none => false)

/-! ## The section-8 parser corpus (C1) -/

/-- Shorthand for a token. -/
def tk (t : TokenType) (s : String) : Token := ⟨t, s⟩

def corpus01 : List Token := [tk .IDENT "a", tk .PLUS "+", tk .IDENT "b", tk .ASTERISK "*", tk .IDENT "c"]
def corpus02 : List Token := [tk .MINUS "-", tk .IDENT "a", tk .ASTERISK "*", tk .IDENT "b"]
def corpus03 : List Token := [tk .BANG "!", tk .MINUS "-", tk .IDENT "a"]
def corpus04 : List Token := [tk .IDENT "a", tk .PLUS "+", tk .IDENT "b", tk .PLUS "+", tk .IDENT "c"]
def corpus05 : List Token := [tk .IDENT "a", tk .PLUS "+", tk .IDENT "b", tk .MINUS "-", tk .IDENT "c"]
def corpus06 : List Token := [tk .IDENT "a", tk .ASTERISK "*", tk .IDENT "b", tk .ASTERISK "*", tk .IDENT "c"]
def corpus07 : List Token := [tk .IDENT "a", tk .ASTERISK "*", tk .IDENT "b", tk .SLASH "/", tk .IDENT "c"]
def corpus08 : List Token := [tk .IDENT "a", tk .PLUS "+", tk .IDENT "b", tk .SLASH "/", tk .IDENT "c"]
def corpus09 : List Token :=
  [tk .IDENT "a", tk .PLUS "+", tk .IDENT "b", tk .ASTERISK "*", tk .IDENT "c", tk .PLUS "+",
   tk .IDENT "d", tk .SLASH "/", tk .IDENT "e", tk .MINUS "-", tk .IDENT "f"]
def corpus10 : List Token :=
  [tk .INT "3", tk .PLUS "+", tk .INT "4", tk .SEMICOLON ";", tk .MINUS "-", tk .INT "5",
   tk .ASTERISK "*", tk .INT "5"]
def corpus11 : List Token :=
  [tk .INT "5", tk .GT ">", tk .INT "4", tk .EQ "==", tk .INT "3", tk .LT "<", tk .INT "4"]
def corpus12 : List Token :=
  [tk .INT "3", tk .PLUS "+", tk .INT "4", tk .ASTERISK "*", tk .INT "5", tk .EQ "==",
   tk .INT "3", tk .ASTERISK "*", tk .INT "1", tk .PLUS "+", tk .INT "4", tk .ASTERISK "*", tk .INT "5"]
def corpus13 : List Token := [tk .TRUE "true"]
def corpus14 : List Token := [tk .FALSE "false"]
def corpus15 : List Token :=
  [tk .INT "3", tk .GT ">", tk .INT "5", tk .EQ "==", tk .FALSE "false"]
def corpus16 : List Token :=
  [tk .INT "1", tk .PLUS "+", tk .LPAREN "(", tk .INT "2", tk .PLUS "+", tk .INT "3",
   tk .RPAREN ")", tk .PLUS "+", tk .INT "4"]
def corpus17 : List Token :=
  [tk .LPAREN "(", tk .INT "5", tk .PLUS "+", tk .INT "5", tk .RPAREN ")", tk .ASTERISK "*", tk .INT "2"]
def corpus18 : List Token :=
  [tk .INT "2", tk .SLASH "/", tk .LPAREN "(", tk .INT "5", tk .PLUS "+", tk .INT "5", tk .RPAREN ")"]
def corpus19 : List Token :=
  [tk .MINUS "-", tk .LPAREN "(", tk .INT "5", tk .PLUS "+", tk .INT "5", tk .RPAREN ")"]
def corpus20 : List Token :=
  [tk .BANG "!", tk .LPAREN "(", tk .TRUE "true", tk .EQ "==", tk .TRUE "true", tk .RPAREN ")"]
def corpus21 : List Token :=
  [tk .IDENT "a", tk .PLUS "+", tk .IDENT "add", tk .LPAREN "(", tk .IDENT "b", tk .ASTERISK "*",
   tk .IDENT "c", tk .RPAREN ")", tk .PLUS "+", tk .IDENT "d"]
def corpus22 : List Token :=
  [tk .IDENT "add", tk .LPAREN "(", tk .IDENT "a", tk .COMMA ",", tk .IDENT "b", tk .COMMA ",",
   tk .INT "1", tk .COMMA ",", tk .INT "2", tk .ASTERISK "*", tk .INT "3", tk .COMMA ",",
   tk .INT "4", tk .PLUS "+", tk .INT "5", tk .COMMA ",", tk .IDENT "add", tk .LPAREN "(",
   tk .INT "6", tk .COMMA ",", tk .INT "7", tk .ASTERISK "*", tk .INT "8", tk .RPAREN ")",
   tk .RPAREN ")"]
def corpus23 : List Token :=
  [tk .IDENT "add", tk .LPAREN "(", tk .IDENT "a", tk .PLUS "+", tk .IDENT "b", tk .PLUS "+",
   tk .IDENT "c", tk .ASTERISK "*", tk .IDENT "d", tk .SLASH "/", tk .IDENT "f", tk .PLUS "+",
   tk .IDENT "g", tk .RPAREN ")"]

/-- The tokens of `add(1, 2;` — a call whose argument list is never
closed by ')'. -/
def unclosedCallTokens : List Token :=
  [tk .IDENT "add", tk .LPAREN "(", tk .INT "1", tk .COMMA ",", tk .INT "2", tk .SEMICOLON ";"]


/-! ## Non-null let/return values after a successful parse (C2)

`stmtOK` demands, through the whole tree, that every LetStatement and
every ReturnStatement carries a non-null value expression.  The claim is
that an empty error list at the end of ParseProgram forces this. -/

mutual
def exprOK : Expression → Bool
  | .identifier _ _ => true
  | .integerLiteral _ _ => true
  | .stringLiteral _ _ => true
  | .boolean _ _ => true
  | .prefixExpression _ _ r => optExprOK r
  | .infixExpression _ l _ r => optExprOK l && optExprOK r
  | .ifExpression _ c cons alt => optExprOK c && blockOK cons && optBlockOK alt
  | .functionLiteral _ _ body => blockOK body
  | .callExpression _ f args => optExprOK f && optArgsOK args

def optExprOK : Option Expression → Bool
  | none => true
  | some e => exprOK e

def optBlockOK : Option BlockStatement → Bool
  | none => true
  | some b => blockOK b

def optArgsOK : Option (List (Option Expression)) → Bool
  | none => true
  | some xs => argsOK xs

def argsOK : List (Option Expression) → Bool
  | [] => true
  | x :: rest => optExprOK x && argsOK rest

def blockOK : BlockStatement → Bool
  | .mk _ stmts => stmtListOK stmts

def stmtListOK : List Statement → Bool
  | [] => true
  | s :: rest => stmtOK s && stmtListOK rest

def stmtOK : Statement → Bool
  | .letStatement _ _ v => v.isSome && optExprOK v
  | .returnStatement _ v => v.isSome && optExprOK v
  | .expressionStatement _ e => optExprOK e
end

/-- A successfully produced (non-nil) expression that is OK throughout. -/
def optGood : Option Expression → Bool
  | none => false
  | some e => exprOK e

/-- A successfully produced (non-nil) argument list, OK throughout. -/
def optArgsGood : Option (List (Option Expression)) → Bool
  | none => false
  | some xs => argsOK xs

/-- Statement results: nil statements are dropped by the loops, so only
produced statements need to be OK. -/
def optStmtOK : Option Statement → Bool
  | none => true
  | some s => stmtOK s

def progOK (pr : Program) : Bool := stmtListOK pr.statements

/-- Error lists only ever grow: p' continues p. -/
def Epre (p p' : Parser) : Prop := ∃ tl, p'.errors = p.errors ++ tl

/-! ## Per-function induction statements for C2 (error growth and
well-formed results) -/

/-- parseExpression grows errors; with no new error the result is a
non-nil OK expression. -/
def C2PE (n : Nat) : Prop :=
  ∀ p precedence r p', parseExpression n p precedence = some (r, p') →
    Epre p p' ∧ (p'.errors = p.errors → optGood r = true)

def C2Loop (n : Nat) : Prop :=
  ∀ p left precedence r p', parseExpressionLoop n p left precedence = some (r, p') →
    Epre p p' ∧ (optGood left = true → p'.errors = p.errors → optGood r = true)

def C2Pfx (n : Nat) : Prop :=
  ∀ p r p', parsePrefixExpression n p = some (r, p') →
    Epre p p' ∧ (p'.errors = p.errors → optGood r = true)

def C2Infx (n : Nat) : Prop :=
  ∀ p left r p', parseInfixExpression n p left = some (r, p') →
    Epre p p' ∧ (optExprOK left = true → p'.errors = p.errors → optGood r = true)

def C2Grp (n : Nat) : Prop :=
  ∀ p r p', parseGroupedExpression n p = some (r, p') →
    Epre p p' ∧ (p'.errors = p.errors → optGood r = true)

def C2If (n : Nat) : Prop :=
  ∀ p r p', parseIfExpression n p = some (r, p') →
    Epre p p' ∧ (p'.errors = p.errors → optGood r = true)

def C2Fn (n : Nat) : Prop :=
  ∀ p r p', parseFunctionLiteral n p = some (r, p') →
    Epre p p' ∧ (p'.errors = p.errors → optGood r = true)

def C2FnP (n : Nat) : Prop :=
  ∀ p r p', parseFunctionParameters n p = some (r, p') → Epre p p'

def C2FnPL (n : Nat) : Prop :=
  ∀ p acc r p', parseFunctionParametersLoop n p acc = some (r, p') → Epre p p'

def C2Call (n : Nat) : Prop :=
  ∀ p left r p', parseCallExpression n p left = some (r, p') →
    Epre p p' ∧ (optExprOK left = true → p'.errors = p.errors → optGood r = true)

def C2EL (n : Nat) : Prop :=
  ∀ p endT r p', parseExpressionList n p endT = some (r, p') →
    Epre p p' ∧ (p'.errors = p.errors → optArgsGood r = true)

def C2ELL (n : Nat) : Prop :=
  ∀ p acc endT r p', parseExpressionListLoop n p acc endT = some (r, p') →
    Epre p p' ∧ (argsOK acc = true → p'.errors = p.errors → optArgsGood r = true)

def C2Blk (n : Nat) : Prop :=
  ∀ p r p', parseBlockStatement n p = some (r, p') →
    Epre p p' ∧ (p'.errors = p.errors → blockOK r = true)

def C2BlkL (n : Nat) : Prop :=
  ∀ p acc r p', parseBlockLoop n p acc = some (r, p') →
    Epre p p' ∧ (stmtListOK acc = true → p'.errors = p.errors → stmtListOK r = true)

def C2Let (n : Nat) : Prop :=
  ∀ p r p', parseLetStatement n p = some (r, p') →
    Epre p p' ∧ (p'.errors = p.errors → optStmtOK r = true)

def C2Ret (n : Nat) : Prop :=
  ∀ p r p', parseReturnStatement n p = some (r, p') →
    Epre p p' ∧ (p'.errors = p.errors → optStmtOK r = true)

def C2ES (n : Nat) : Prop :=
  ∀ p r p', parseExpressionStatement n p = some (r, p') →
    Epre p p' ∧ (p'.errors = p.errors → optStmtOK r = true)

def C2Stmt (n : Nat) : Prop :=
  ∀ p r p', parseStatement n p = some (r, p') →
    Epre p p' ∧ (p'.errors = p.errors → optStmtOK r = true)

def C2ProgL (n : Nat) : Prop :=
  ∀ p acc r p', parseProgramLoop n p acc = some (r, p') →
    Epre p p' ∧ (stmtListOK acc = true → p'.errors = p.errors → stmtListOK r = true)

def C2All (n : Nat) : Prop :=
  C2PE n ∧ C2Loop n ∧ C2Pfx n ∧ C2Infx n ∧ C2Grp n ∧ C2If n ∧ C2Fn n ∧
  C2FnP n ∧ C2FnPL n ∧ C2Call n ∧ C2EL n ∧ C2ELL n ∧ C2Blk n ∧ C2BlkL n ∧
  C2Let n ∧ C2Ret n ∧ C2ES n ∧ C2Stmt n ∧ C2ProgL n

/-! ## Termination of ParseProgram (C4)

`mu` measures how much input is left (remaining list plus the two
look-ahead slots); `inv` says the token source is a well-formed lexer
stream: EOF never appears inside the pending tokens, and once a
look-ahead slot holds EOF everything after it is EOF too.  Every
recursive call either strictly lowers `mu` or moves to a function of
strictly lower rank at the same `mu`, so fuel `10 * mu + rank` always
suffices. -/

def mu (p : Parser) : Nat :=
  p.rest.length + (if p.curToken.type = .EOF then 0 else 1) +
    (if p.peekToken.type = .EOF then 0 else 1)

def inv (p : Parser) : Prop :=
  (∀ t ∈ p.rest, t.type ≠ TokenType.EOF) ∧
  (p.peekToken.type = .EOF → p.rest = []) ∧
  (p.curToken.type = .EOF → p.peekToken.type = .EOF)

def C4PE (fuel : Nat) : Prop :=
  ∀ p precedence, inv p → 10 * mu p + 4 ≤ fuel →
    ∃ r p', parseExpression fuel p precedence = some (r, p') ∧ inv p' ∧ mu p' ≤ mu p

def C4Loop (fuel : Nat) : Prop :=
  ∀ p left precedence, inv p → 10 * mu p + 3 ≤ fuel →
    ∃ r p', parseExpressionLoop fuel p left precedence = some (r, p') ∧ inv p' ∧ mu p' ≤ mu p

def C4Pfx (fuel : Nat) : Prop :=
  ∀ p, inv p → p.curToken.type ≠ .EOF → 10 * mu p + 1 ≤ fuel →
    ∃ r p', parsePrefixExpression fuel p = some (r, p') ∧ inv p' ∧ mu p' ≤ mu p

def C4Infx (fuel : Nat) : Prop :=
  ∀ p left, inv p → p.curToken.type ≠ .EOF → 10 * mu p + 1 ≤ fuel →
    ∃ r p', parseInfixExpression fuel p left = some (r, p') ∧ inv p' ∧ mu p' ≤ mu p

def C4Grp (fuel : Nat) : Prop :=
  ∀ p, inv p → p.curToken.type ≠ .EOF → 10 * mu p + 1 ≤ fuel →
    ∃ r p', parseGroupedExpression fuel p = some (r, p') ∧ inv p' ∧ mu p' ≤ mu p

def C4If (fuel : Nat) : Prop :=
  ∀ p, inv p → 10 * mu p + 1 ≤ fuel →
    ∃ r p', parseIfExpression fuel p = some (r, p') ∧ inv p' ∧ mu p' ≤ mu p

def C4Fn (fuel : Nat) : Prop :=
  ∀ p, inv p → 10 * mu p + 1 ≤ fuel →
    ∃ r p', parseFunctionLiteral fuel p = some (r, p') ∧ inv p' ∧ mu p' ≤ mu p

def C4FnP (fuel : Nat) : Prop :=
  ∀ p, inv p → p.curToken.type ≠ .EOF → 10 * mu p + 1 ≤ fuel →
    ∃ r p', parseFunctionParameters fuel p = some (r, p') ∧ inv p' ∧ mu p' ≤ mu p

def C4FnPL (fuel : Nat) : Prop :=
  ∀ p acc, inv p → 10 * mu p + 1 ≤ fuel →
    ∃ r p', parseFunctionParametersLoop fuel p acc = some (r, p') ∧ inv p' ∧ mu p' ≤ mu p

def C4Call (fuel : Nat) : Prop :=
  ∀ p left, inv p → p.curToken.type ≠ .EOF → 10 * mu p + 2 ≤ fuel →
    ∃ r p', parseCallExpression fuel p left = some (r, p') ∧ inv p' ∧ mu p' ≤ mu p

def C4EL (fuel : Nat) : Prop :=
  ∀ p endT, inv p → p.curToken.type ≠ .EOF → 10 * mu p + 1 ≤ fuel →
    ∃ r p', parseExpressionList fuel p endT = some (r, p') ∧ inv p' ∧ mu p' ≤ mu p

def C4ELL (fuel : Nat) : Prop :=
  ∀ p acc endT, inv p → 10 * mu p + 1 ≤ fuel →
    ∃ r p', parseExpressionListLoop fuel p acc endT = some (r, p') ∧ inv p' ∧ mu p' ≤ mu p

def C4Blk (fuel : Nat) : Prop :=
  ∀ p, inv p → p.curToken.type ≠ .EOF → 10 * mu p + 1 ≤ fuel →
    ∃ r p', parseBlockStatement fuel p = some (r, p') ∧ inv p' ∧ mu p' ≤ mu p

def C4BlkL (fuel : Nat) : Prop :=
  ∀ p acc, inv p → 10 * mu p + 7 ≤ fuel →
    ∃ r p', parseBlockLoop fuel p acc = some (r, p') ∧ inv p' ∧ mu p' ≤ mu p

def C4Let (fuel : Nat) : Prop :=
  ∀ p, inv p → 10 * mu p + 5 ≤ fuel →
    ∃ r p', parseLetStatement fuel p = some (r, p') ∧ inv p' ∧ mu p' ≤ mu p

def C4Ret (fuel : Nat) : Prop :=
  ∀ p, inv p → 10 * mu p + 5 ≤ fuel →
    ∃ r p', parseReturnStatement fuel p = some (r, p') ∧ inv p' ∧ mu p' ≤ mu p

def C4ES (fuel : Nat) : Prop :=
  ∀ p, inv p → 10 * mu p + 5 ≤ fuel →
    ∃ r p', parseExpressionStatement fuel p = some (r, p') ∧ inv p' ∧ mu p' ≤ mu p

def C4Stmt (fuel : Nat) : Prop :=
  ∀ p, inv p → 10 * mu p + 6 ≤ fuel →
    ∃ r p', parseStatement fuel p = some (r, p') ∧ inv p' ∧ mu p' ≤ mu p

def C4ProgL (fuel : Nat) : Prop :=
  ∀ p acc, inv p → 10 * mu p + 7 ≤ fuel →
    ∃ r p', parseProgramLoop fuel p acc = some (r, p') ∧ inv p' ∧ mu p' ≤ mu p

def C4All (fuel : Nat) : Prop :=
  C4PE fuel ∧ C4Loop fuel ∧ C4Pfx fuel ∧ C4Infx fuel ∧ C4Grp fuel ∧ C4If fuel ∧
  C4Fn fuel ∧ C4FnP fuel ∧ C4FnPL fuel ∧ C4Call fuel ∧ C4EL fuel ∧ C4ELL fuel ∧
  C4Blk fuel ∧ C4BlkL fuel ∧ C4Let fuel ∧ C4Ret fuel ∧ C4ES fuel ∧ C4Stmt fuel ∧
  C4ProgL fuel

/-! ## Store and environment lemmas -/

theorem Get_mk (s : List (String × Object)) (o : Option Environment) (name : String) :
    (Environment.mk s o).Get name =
      (match storeGet s name with
       | some v => some v
       | none =>
         match o with
         | some oo => oo.Get name
         | none => none) := by
  cases h : storeGet s name <;> cases o <;> simp [Environment.Get, h]

theorem storeGet_storeSet_same (s : List (String × Object)) (name : String) (v : Object) :
    storeGet (storeSet s name v) name = some v := by
  induction s with
  | nil => simp [storeSet, storeGet]
  | cons kv rest ih =>
    obtain ⟨k, w⟩ := kv
    by_cases hk : k = name
    · simp [storeSet, storeGet, hk]
    · simp [storeSet, storeGet, hk, ih]

theorem get_isSome_eq_chainBinds : (e : Environment) → (name : String) →
    (e.Get name).isSome = chainBinds e name
  | .mk store outer, name => by
    cases houter : outer with
    | none =>
      simp only [Environment.Get, chainBinds]
      cases storeGet store name <;> simp
    | some o =>
      have ih := get_isSome_eq_chainBinds o name
      simp only [Environment.Get, chainBinds]
      cases storeGet store name <;> simp [ih]

/-- C3: Set writes only into the current frame's table: afterwards Get
on that name yields the value, the outer pointer (hence every outer
frame) is untouched, and the new frame store is exactly the old store
with this one binding replaced or added — lexical shadowing for names
also bound outer. -/
theorem set_writes_only_current_frame (e : Environment) (name : String) (v : Object) :
    (e.Set name v).1.Get name = some v ∧
    (e.Set name v).1.outer = e.outer ∧
    (e.Set name v).1.store = storeSet e.store name v := by
  obtain ⟨s, o⟩ := e
  refine ⟨?_, rfl, rfl⟩
  show Environment.Get (.mk (storeSet s name v) o) name = some v
  rw [Get_mk, storeGet_storeSet_same]

/-- C7: Get searches the current frame first: a binding in the current
store is returned as is; when the current store misses, the result is
the outer chain's (none with no outer frame); found is true exactly when
some frame of the chain binds the name. -/
theorem get_searches_innermost_first (e : Environment) (name : String) :
    (∀ v, storeGet e.store name = some v → e.Get name = some v) ∧
    (storeGet e.store name = none →
      e.Get name = (match e.outer with
                    | some o => o.Get name
                    | none => none)) ∧
    (e.Get name).isSome = chainBinds e name := by
  obtain ⟨s, o⟩ := e
  refine ⟨?_, ?_, get_isSome_eq_chainBinds _ _⟩
  · intro v hv
    simp only [Environment.store] at hv
    rw [Get_mk, hv]
  · intro hv
    simp only [Environment.store] at hv
    rw [Get_mk, hv]
    cases o <;> simp [Environment.outer]

/-- Witness for C7 at a two-frame chain: the inner frame binds x and
shadows, y is found through the outer frame only. -/
theorem get_searches_innermost_first_witness :
    (Environment.mk [("x", .integer 2)] (some (.mk [("x", .integer 1), ("y", .null)] none))).Get "x"
      = some (.integer 2) ∧
    (Environment.mk [("x", .integer 2)] (some (.mk [("x", .integer 1), ("y", .null)] none))).Get "y"
      = (match (Environment.mk [("x", .integer 2)] (some (.mk [("x", .integer 1), ("y", .null)] none))).outer with
         | some o => o.Get "y"
         | none => none) :=
  ⟨(get_searches_innermost_first _ "x").1 _ rfl,
   (get_searches_innermost_first _ "y").2.1 rfl⟩

/-- C10: Set returns the stored value itself, and Get immediately after
Set yields it, whatever the outer chain holds. -/
theorem set_get_roundtrip (e : Environment) (name : String) (v : Object) :
    (e.Set name v).2 = v ∧ (e.Set name v).1.Get name = some v := by
  obtain ⟨s, o⟩ := e
  refine ⟨rfl, ?_⟩
  show Environment.Get (.mk (storeSet s name v) o) name = some v
  rw [Get_mk, storeGet_storeSet_same]

/-- C8: PrefixExpression.String() is (<op><right>), and
InfixExpression.String() is (<left> <op> <right>). -/
theorem prefix_infix_string_forms (tok : Token) (op : String) (l r : Expression) :
    exprString (.prefixExpression tok op (some r)) = "(" ++ op ++ exprString r ++ ")" ∧
    exprString (.infixExpression tok (some l) op (some r))
      = "(" ++ exprString l ++ " " ++ op ++ " " ++ exprString r ++ ")" := by
  constructor <;> simp [exprString, optExprString]

/-- C1: on the section-8 corpus, ParseProgram followed by Program.String()
yields the canonical fully-parenthesized rendering: * and / bind tighter
than + and -, which bind tighter than < and >, which bind tighter than
== and !=, call '(' binds tightest, and equal precedence associates to
the left. -/
theorem corpus_canonical_rendering :
    (parseProgram 99 corpus01).map programString = some "(a + (b * c))" ∧
    (parseProgram 99 corpus02).map programString = some "((-a) * b)" ∧
    (parseProgram 99 corpus03).map programString = some "(!(-a))" ∧
    (parseProgram 99 corpus04).map programString = some "((a + b) + c)" ∧
    (parseProgram 99 corpus05).map programString = some "((a + b) - c)" ∧
    (parseProgram 99 corpus06).map programString = some "((a * b) * c)" ∧
    (parseProgram 99 corpus07).map programString = some "((a * b) / c)" ∧
    (parseProgram 99 corpus08).map programString = some "(a + (b / c))" ∧
    (parseProgram 99 corpus09).map programString = some "(((a + (b * c)) + (d / e)) - f)" ∧
    (parseProgram 99 corpus10).map programString = some "(3 + 4)((-5) * 5)" ∧
    (parseProgram 99 corpus11).map programString = some "((5 > 4) == (3 < 4))" ∧
    (parseProgram 99 corpus12).map programString = some "((3 + (4 * 5)) == ((3 * 1) + (4 * 5)))" ∧
    (parseProgram 99 corpus13).map programString = some "true" ∧
    (parseProgram 99 corpus14).map programString = some "false" ∧
    (parseProgram 99 corpus15).map programString = some "((3 > 5) == false)" ∧
    (parseProgram 99 corpus16).map programString = some "((1 + (2 + 3)) + 4)" ∧
    (parseProgram 99 corpus17).map programString = some "((5 + 5) * 2)" ∧
    (parseProgram 99 corpus18).map programString = some "(2 / (5 + 5))" ∧
    (parseProgram 99 corpus19).map programString = some "(-(5 + 5))" ∧
    (parseProgram 99 corpus20).map programString = some "(!(true == true))" ∧
    (parseProgram 99 corpus21).map programString = some "((a + add((b * c))) + d)" ∧
    (parseProgram 99 corpus22).map programString
      = some "add(a, b, 1, (2 * 3), (4 + 5), add(6, (7 * 8)))" ∧
    (parseProgram 99 corpus23).map programString = some "add((((a + b) + ((c * d) / f)) + g))" :=
  ⟨rfl, rfl, rfl, rfl, rfl, rfl, rfl, rfl, rfl, rfl, rfl, rfl, rfl, rfl, rfl, rfl, rfl, rfl,
   rfl, rfl, rfl, rfl, rfl⟩

/-! ## Error messages (C5) and integer literals (C6) -/

/-- C5: an expectPeek mismatch appends exactly
`expected next token to be <kind>, got <kind> instead` and returns
(parsing continues with the same look-ahead); a missing prefix parse
function makes parseExpression append exactly
`no prefix parse function for <kind> found` and return nil (not abort). -/
theorem error_message_templates :
    (∀ (t : TokenType) (p : Parser), p.peekToken.type ≠ t →
      expectPeek t p =
        (false, { p with errors := p.errors ++
          ["expected next token to be " ++ t.str ++ ", got " ++ p.peekToken.type.str ++ " instead"] })) ∧
    (∀ (n : Nat) (p : Parser) (precedence : Nat), hasPrefixFn p.curToken.type = false →
      parseExpression (n + 1) p precedence =
        some (none, { p with errors := p.errors ++
          ["no prefix parse function for " ++ p.curToken.type.str ++ " found"] })) := by
  constructor
  · intro t p h
    simp [expectPeek, h, peekError]
  · intro n p precedence h
    simp only [hasPrefixFn, Bool.or_eq_false_iff, beq_eq_false_iff_ne, ne_eq] at h
    obtain ⟨⟨⟨⟨⟨⟨⟨⟨⟨h1, h2⟩, h3⟩, h4⟩, h5⟩, h6⟩, h7⟩, h8⟩, h9⟩, h10⟩ := h
    simp [parseExpression, h1, h2, h3, h4, h5, h6, h7, h8, h9, h10, noPrefixParseFnError]

/-- Witness for C5: a parser whose current and peek token are ';'. -/
theorem error_message_templates_witness :
    expectPeek .RPAREN ⟨[], tk .SEMICOLON ";", tk .SEMICOLON ";", []⟩ =
      (false, ⟨[], tk .SEMICOLON ";", tk .SEMICOLON ";",
        ["expected next token to be ), got ; instead"]⟩) ∧
    parseExpression 5 ⟨[], tk .SEMICOLON ";", tk .SEMICOLON ";", []⟩ LOWEST =
      some (none, ⟨[], tk .SEMICOLON ";", tk .SEMICOLON ";",
        ["no prefix parse function for ; found"]⟩) :=
  ⟨error_message_templates.1 .RPAREN _ (by decide),
   error_message_templates.2 4 _ LOWEST (by decide)⟩

/-- C6: parseIntegerLiteral converts the literal by Go's base-0 signed
64-bit parsing: a literal denoting a representable integer becomes the
node's Value; otherwise `could not parse "<lit>" as integer` is appended
and nil returned.  The last four conjuncts anchor the model at the int64
boundary. -/
theorem integer_literal_base0_parsing (p : Parser) (_h : p.curToken.type = .INT) :
    (∀ v, goParseInt64 p.curToken.literal = some v →
      parseIntegerLiteral p = (some (.integerLiteral p.curToken v), p)) ∧
    (goParseInt64 p.curToken.literal = none →
      parseIntegerLiteral p = (none, { p with errors := p.errors ++
        ["could not parse " ++ goQuote p.curToken.literal ++ " as integer"] })) ∧
    goParseInt64 "9223372036854775807" = some 9223372036854775807 ∧
    goParseInt64 "9223372036854775808" = none ∧
    goParseInt64 "-9223372036854775808" = some (-9223372036854775808) ∧
    goParseInt64 "-9223372036854775809" = none := by
  refine ⟨?_, ?_, by decide, by decide, by decide, by decide⟩
  · intro v hv
    simp [parseIntegerLiteral, hv]
  · intro hv
    simp [parseIntegerLiteral, hv]

/-- Witness for C6: the literal 5 parses to 5; a literal beyond the
int64 range records the error string and yields nil. -/
theorem integer_literal_base0_parsing_witness :
    parseIntegerLiteral ⟨[], tk .INT "5", eofToken, []⟩ =
      (some (.integerLiteral (tk .INT "5") 5), ⟨[], tk .INT "5", eofToken, []⟩) ∧
    parseIntegerLiteral ⟨[], tk .INT "99999999999999999999", eofToken, []⟩ =
      (none, ⟨[], tk .INT "99999999999999999999", eofToken,
        ["could not parse \"99999999999999999999\" as integer"]⟩) :=
  ⟨(integer_literal_base0_parsing ⟨[], tk .INT "5", eofToken, []⟩ rfl).1 5 (by decide),
   (integer_literal_base0_parsing ⟨[], tk .INT "99999999999999999999", eofToken, []⟩ rfl).2.1
     (by decide)⟩

/-! ## Unclosed call argument lists (C9) -/

theorem pelistloop_none_has_peek_error :
    ∀ (n : Nat) (p : Parser) (acc : List (Option Expression)) (endT : TokenType) (p1 : Parser),
    parseExpressionListLoop n p acc endT = some (none, p1) →
    ∃ pre got, p1.errors =
      pre ++ ["expected next token to be " ++ endT.str ++ ", got " ++ TokenType.str got ++ " instead"] := by
  intro n
  induction n with
  | zero => intro p acc endT p1 h; simp [parseExpressionListLoop] at h
  | succ n ih =>
    intro p acc endT p1 h
    rw [parseExpressionListLoop] at h
    by_cases hc : p.peekToken.type = .COMMA
    · rw [if_pos hc] at h
      cases hx : parseExpression n (nextToken (nextToken p)) LOWEST with
      | none => rw [hx] at h; simp at h
      | some ep =>
        obtain ⟨e, p2⟩ := ep
        rw [hx] at h
        exact ih _ _ _ _ h
    · rw [if_neg hc] at h
      unfold expectPeek at h
      by_cases he : p.peekToken.type = endT
      · rw [if_pos he] at h; simp at h
      · rw [if_neg he] at h
        simp only [Option.some.injEq, Prod.mk.injEq] at h
        refine ⟨p.errors, p.peekToken.type, ?_⟩
        rw [← h.2]
        simp [peekError]

theorem pelist_none_has_peek_error :
    ∀ (n : Nat) (p : Parser) (endT : TokenType) (p1 : Parser),
    parseExpressionList n p endT = some (none, p1) →
    ∃ pre got, p1.errors =
      pre ++ ["expected next token to be " ++ endT.str ++ ", got " ++ TokenType.str got ++ " instead"] := by
  intro n p endT p1 h
  match n with
  | 0 => simp [parseExpressionList] at h
  | n + 1 =>
    rw [parseExpressionList] at h
    by_cases he : p.peekToken.type = endT
    · rw [if_pos he] at h; simp at h
    · rw [if_neg he] at h
      cases hx : parseExpression n (nextToken p) LOWEST with
      | none => rw [hx] at h; simp at h
      | some ep =>
        obtain ⟨e, p2⟩ := ep
        rw [hx] at h
        exact pelistloop_none_has_peek_error _ _ _ _ _ h

/-- C9: when parseExpressionList fails to find ')' it returns nil, so
parseCallExpression builds a CallExpression whose Arguments list is nil
while the error list ends in an expectPeek message; end to end, the
surrounding statement (with the nil-argument call inside) is still
appended to the Program. -/
theorem unclosed_call_args (n : Nat) (p : Parser) (function : Option Expression) (p1 : Parser)
    (h : parseExpressionList n p .RPAREN = some (none, p1)) :
    parseCallExpression (n + 1) p function
      = some (some (.callExpression p.curToken function none), p1) ∧
    (∃ pre got, p1.errors =
      pre ++ ["expected next token to be ), got " ++ TokenType.str got ++ " instead"]) ∧
    parseProgram 99 unclosedCallTokens
      = some ⟨[.expressionStatement (tk .IDENT "add")
          (some (.callExpression (tk .LPAREN "(")
            (some (.identifier (tk .IDENT "add") "add")) none))]⟩ ∧
    parseErrors 99 unclosedCallTokens = some ["expected next token to be ), got ; instead"] := by
  refine ⟨?_, pelist_none_has_peek_error n p .RPAREN p1 h, rfl, rfl⟩
  rw [parseCallExpression, h]

/-- Witness for C9: a parser sitting on '(' with ';' next; the list
parse fails, and parseCallExpression yields the nil-argument call node. -/
theorem unclosed_call_args_witness :
    parseCallExpression 10 ⟨[], tk .LPAREN "(", tk .SEMICOLON ";", []⟩
        (some (.identifier (tk .IDENT "add") "add"))
      = some (some (.callExpression (tk .LPAREN "(")
          (some (.identifier (tk .IDENT "add") "add")) none),
        ⟨[], tk .SEMICOLON ";", eofToken,
          ["no prefix parse function for ; found",
           "expected next token to be ), got EOF instead"]⟩) :=
  (unclosed_call_args 9 ⟨[], tk .LPAREN "(", tk .SEMICOLON ";", []⟩
    (some (.identifier (tk .IDENT "add") "add")) _ rfl).1

theorem epre_self (p : Parser) : Epre p p := ⟨[], by simp⟩

theorem epre_of_eq {p q : Parser} (h : q.errors = p.errors) : Epre p q := ⟨[], by simp [h]⟩

theorem epre_trans {p q r : Parser} (h1 : Epre p q) (h2 : Epre q r) : Epre p r := by
  obtain ⟨t1, e1⟩ := h1
  obtain ⟨t2, e2⟩ := h2
  exact ⟨t1 ++ t2, by rw [e2, e1, List.append_assoc]⟩

theorem epre_squeeze {p q r : Parser} (h1 : Epre p q) (h2 : Epre q r)
    (h : r.errors = p.errors) : q.errors = p.errors ∧ r.errors = q.errors := by
  obtain ⟨t1, e1⟩ := h1
  obtain ⟨t2, e2⟩ := h2
  rw [e2, e1, List.append_assoc] at h
  have h0 : p.errors ++ (t1 ++ t2) = p.errors ++ [] := by simpa using h
  have := List.append_cancel_left h0
  have ht1 : t1 = [] := by
    rcases List.append_eq_nil.mp this with ⟨a, b⟩
    exact a
  have ht2 : t2 = [] := by
    rcases List.append_eq_nil.mp this with ⟨a, b⟩
    exact b
  constructor
  · rw [e1, ht1, List.append_nil]
  · rw [e2, ht2, List.append_nil]

theorem errors_snoc_ne (p : Parser) (m : String) : p.errors ++ [m] ≠ p.errors := by
  intro h
  have := congrArg List.length h
  simp at this

theorem nextToken_errors (p : Parser) : (nextToken p).errors = p.errors := rfl

theorem semiskip_errors (c : Prop) [Decidable c] (p : Parser) :
    (if c then nextToken p else p).errors = p.errors := by
  split <;> rfl

theorem optGood_isSome_ok {v : Option Expression} (h : optGood v = true) :
    (v.isSome && optExprOK v) = true := by
  cases v with
  | none => simp [optGood] at h
  | some e => simpa [optExprOK, optGood] using h

theorem optGood_optExprOK {v : Option Expression} (h : optGood v = true) :
    optExprOK v = true := by
  cases v with
  | none => simp [optGood] at h
  | some e => simpa [optExprOK, optGood] using h

theorem argsOK_append (xs : List (Option Expression)) (x : Option Expression) :
    argsOK (xs ++ [x]) = (optExprOK x && argsOK xs) := by
  induction xs with
  | nil => simp [argsOK]
  | cons y ys ih => simp [argsOK, ih]; rw [Bool.and_left_comm]

theorem stmtListOK_append (xs : List Statement) (s : Statement) :
    stmtListOK (xs ++ [s]) = (stmtOK s && stmtListOK xs) := by
  induction xs with
  | nil => simp [stmtListOK]
  | cons y ys ih => simp [stmtListOK, ih]; rw [Bool.and_left_comm]

/-! ## The C2 induction -/

theorem expectPeek_cases (t : TokenType) (p : Parser) :
    (expectPeek t p = (true, nextToken p) ∧ p.peekToken.type = t) ∨
    (expectPeek t p = (false, peekError t p) ∧ p.peekToken.type ≠ t) := by
  unfold expectPeek
  by_cases h : p.peekToken.type = t
  · left; exact ⟨by rw [if_pos h], h⟩
  · right; exact ⟨by rw [if_neg h], h⟩

theorem epre_peekError (t : TokenType) (p : Parser) : Epre p (peekError t p) :=
  ⟨_, rfl⟩

theorem epre_nextToken (p : Parser) : Epre p (nextToken p) :=
  epre_of_eq (nextToken_errors p)

theorem epre_nextToken2 (p : Parser) : Epre p (nextToken (nextToken p)) :=
  epre_trans (epre_nextToken p) (epre_nextToken (nextToken p))

theorem peekError_errors_ne (t : TokenType) (p : Parser) :
    (peekError t p).errors ≠ p.errors :=
  errors_snoc_ne p _

theorem c2_zero : C2All 0 := by
  refine ⟨?_, ?_, ?_, ?_, ?_, ?_, ?_, ?_, ?_, ?_, ?_, ?_, ?_, ?_, ?_, ?_, ?_, ?_, ?_⟩ <;>
    (simp only [C2PE, C2Loop, C2Pfx, C2Infx, C2Grp, C2If, C2Fn, C2FnP, C2FnPL, C2Call,
       C2EL, C2ELL, C2Blk, C2BlkL, C2Let, C2Ret, C2ES, C2Stmt, C2ProgL]
     intros
     simp_all only [parseExpression, parseExpressionLoop, parsePrefixExpression,
       parseInfixExpression, parseGroupedExpression, parseIfExpression,
       parseFunctionLiteral, parseFunctionParameters, parseFunctionParametersLoop,
       parseCallExpression, parseExpressionList, parseExpressionListLoop,
       parseBlockStatement, parseBlockLoop, parseLetStatement, parseReturnStatement,
       parseExpressionStatement, parseStatement, parseProgramLoop,
       reduceCtorEq])

theorem optArgsGood_optArgsOK {a : Option (List (Option Expression))}
    (h : optArgsGood a = true) : optArgsOK a = true := by
  cases a with
  | none => simp [optArgsGood] at h
  | some xs => simpa [optArgsOK, optArgsGood] using h

theorem c2fnpl_step (n : Nat) (ih : C2All n) : C2FnPL (n + 1) := by
  obtain ⟨hPE, hLoop, hPfx, hInfx, hGrp, hIf, hFn, hFnP, hFnPL, hCall, hEL, hELL,
    hBlk, hBlkL, hLet, hRet, hES, hStmt, hProgL⟩ := ih
  intro p acc r p' h
  rw [parseFunctionParametersLoop] at h
  by_cases hc : p.peekToken.type = .COMMA
  · rw [if_pos hc] at h
    try simp only at h
    exact epre_trans (epre_nextToken2 p) (hFnPL _ _ _ _ h)
  · rw [if_neg hc] at h
    rcases expectPeek_cases .RPAREN p with ⟨he, _⟩ | ⟨he, _⟩ <;> rw [he] at h <;>
      simp only [Option.some.injEq, Prod.mk.injEq] at h
    · exact epre_of_eq (by rw [← h.2]; rfl)
    · exact h.2 ▸ epre_peekError _ _

theorem c2fnp_step (n : Nat) (ih : C2All n) : C2FnP (n + 1) := by
  obtain ⟨hPE, hLoop, hPfx, hInfx, hGrp, hIf, hFn, hFnP, hFnPL, hCall, hEL, hELL,
    hBlk, hBlkL, hLet, hRet, hES, hStmt, hProgL⟩ := ih
  intro p r p' h
  rw [parseFunctionParameters] at h
  by_cases hr : p.peekToken.type = .RPAREN
  · rw [if_pos hr] at h
    simp only [Option.some.injEq, Prod.mk.injEq] at h
    exact epre_of_eq (by rw [← h.2]; rfl)
  · rw [if_neg hr] at h
    try simp only at h
    exact epre_trans (epre_nextToken p) (hFnPL _ _ _ _ h)

theorem c2ell_step (n : Nat) (ih : C2All n) : C2ELL (n + 1) := by
  obtain ⟨hPE, hLoop, hPfx, hInfx, hGrp, hIf, hFn, hFnP, hFnPL, hCall, hEL, hELL,
    hBlk, hBlkL, hLet, hRet, hES, hStmt, hProgL⟩ := ih
  intro p acc endT r p' h
  rw [parseExpressionListLoop] at h
  by_cases hc : p.peekToken.type = .COMMA
  · rw [if_pos hc] at h
    cases hx : parseExpression n (nextToken (nextToken p)) LOWEST with
    | none => rw [hx] at h; exact absurd h (by simp)
    | some ep =>
      obtain ⟨e, p2⟩ := ep
      rw [hx] at h
      have h1 := hPE _ _ _ _ hx
      have h2 := hELL _ _ _ _ _ h
      have ep2 : Epre p p2 := epre_trans (epre_of_eq rfl) h1.1
      refine ⟨epre_trans ep2 h2.1, ?_⟩
      intro hacc heq
      obtain ⟨q1, q2⟩ := epre_squeeze ep2 h2.1 heq
      have hg : optGood e = true := h1.2 q1
      have hacc' : argsOK (acc ++ [e]) = true := by
        rw [argsOK_append]
        simp [optGood_optExprOK hg, hacc]
      exact h2.2 hacc' q2
  · rw [if_neg hc] at h
    rcases expectPeek_cases endT p with ⟨he, _⟩ | ⟨he, _⟩ <;> rw [he] at h <;>
      simp only [Option.some.injEq, Prod.mk.injEq] at h
    · refine ⟨epre_of_eq (by rw [← h.2]; rfl), ?_⟩
      intro hacc heq
      rw [← h.1]
      simpa [optArgsGood] using hacc
    · refine ⟨h.2 ▸ epre_peekError _ _, ?_⟩
      intro hacc heq
      exact absurd (h.2 ▸ heq) (peekError_errors_ne endT p)

theorem c2el_step (n : Nat) (ih : C2All n) : C2EL (n + 1) := by
  obtain ⟨hPE, hLoop, hPfx, hInfx, hGrp, hIf, hFn, hFnP, hFnPL, hCall, hEL, hELL,
    hBlk, hBlkL, hLet, hRet, hES, hStmt, hProgL⟩ := ih
  intro p endT r p' h
  rw [parseExpressionList] at h
  by_cases hr : p.peekToken.type = endT
  · rw [if_pos hr] at h
    simp only [Option.some.injEq, Prod.mk.injEq] at h
    refine ⟨epre_of_eq (by rw [← h.2]; rfl), ?_⟩
    intro heq
    rw [← h.1]
    simp [optArgsGood, argsOK]
  · rw [if_neg hr] at h
    cases hx : parseExpression n (nextToken p) LOWEST with
    | none => rw [hx] at h; exact absurd h (by simp)
    | some ep =>
      obtain ⟨e, p2⟩ := ep
      rw [hx] at h
      have h1 := hPE _ _ _ _ hx
      have h2 := hELL _ _ _ _ _ h
      have ep2 : Epre p p2 := epre_trans (epre_of_eq rfl) h1.1
      refine ⟨epre_trans ep2 h2.1, ?_⟩
      intro heq
      obtain ⟨q1, q2⟩ := epre_squeeze ep2 h2.1 heq
      have hg : optGood e = true := h1.2 q1
      have hacc : argsOK [e] = true := by simp [argsOK, optGood_optExprOK hg]
      exact h2.2 hacc q2

theorem c2call_step (n : Nat) (ih : C2All n) : C2Call (n + 1) := by
  obtain ⟨hPE, hLoop, hPfx, hInfx, hGrp, hIf, hFn, hFnP, hFnPL, hCall, hEL, hELL,
    hBlk, hBlkL, hLet, hRet, hES, hStmt, hProgL⟩ := ih
  intro p left r p' h
  rw [parseCallExpression] at h
  cases hx : parseExpressionList n p .RPAREN with
  | none => rw [hx] at h; exact absurd h (by simp)
  | some ap =>
    obtain ⟨args, p1⟩ := ap
    rw [hx] at h
    simp only [Option.some.injEq, Prod.mk.injEq] at h
    obtain ⟨h1, h2⟩ := h
    have hel := hEL _ _ _ _ hx
    subst h2
    refine ⟨hel.1, ?_⟩
    intro hleft heq
    rw [← h1]
    simp [optGood, exprOK, hleft, optArgsGood_optArgsOK (hel.2 heq)]

theorem epre_noPrefix (t : TokenType) (p : Parser) : Epre p (noPrefixParseFnError t p) :=
  ⟨_, rfl⟩

theorem noPrefix_errors_ne (t : TokenType) (p : Parser) :
    (noPrefixParseFnError t p).errors ≠ p.errors :=
  errors_snoc_ne p _

theorem c2_parseIntegerLiteral (p : Parser) :
    Epre p (parseIntegerLiteral p).2 ∧
    ((parseIntegerLiteral p).2.errors = p.errors → optGood (parseIntegerLiteral p).1 = true) := by
  unfold parseIntegerLiteral
  cases goParseInt64 p.curToken.literal with
  | some v => exact ⟨epre_self p, fun _ => by simp [optGood, exprOK]⟩
  | none =>
    refine ⟨⟨_, rfl⟩, fun heq => absurd heq (errors_snoc_ne p _)⟩

theorem c2pfx_step (n : Nat) (ih : C2All n) : C2Pfx (n + 1) := by
  obtain ⟨hPE, hLoop, hPfx, hInfx, hGrp, hIf, hFn, hFnP, hFnPL, hCall, hEL, hELL,
    hBlk, hBlkL, hLet, hRet, hES, hStmt, hProgL⟩ := ih
  intro p r p' h
  rw [parsePrefixExpression] at h
  try simp only at h
  cases hx : parseExpression n (nextToken p) PREC6 with
  | none => rw [hx] at h; exact absurd h (by simp)
  | some rp =>
    obtain ⟨right, p2⟩ := rp
    rw [hx] at h
    simp only [Option.some.injEq, Prod.mk.injEq] at h
    obtain ⟨h1, h2⟩ := h
    have h0 := hPE _ _ _ _ hx
    subst h2
    refine ⟨epre_trans (epre_nextToken p) h0.1, ?_⟩
    intro heq
    have hg : optGood right = true := h0.2 heq
    rw [← h1]
    simp [optGood, exprOK, optGood_optExprOK hg]

theorem c2infx_step (n : Nat) (ih : C2All n) : C2Infx (n + 1) := by
  obtain ⟨hPE, hLoop, hPfx, hInfx, hGrp, hIf, hFn, hFnP, hFnPL, hCall, hEL, hELL,
    hBlk, hBlkL, hLet, hRet, hES, hStmt, hProgL⟩ := ih
  intro p left r p' h
  rw [parseInfixExpression] at h
  try simp only at h
  cases hx : parseExpression n (nextToken p) (curPrecedence p) with
  | none => rw [hx] at h; exact absurd h (by simp)
  | some rp =>
    obtain ⟨right, p2⟩ := rp
    rw [hx] at h
    simp only [Option.some.injEq, Prod.mk.injEq] at h
    obtain ⟨h1, h2⟩ := h
    have h0 := hPE _ _ _ _ hx
    subst h2
    refine ⟨epre_trans (epre_nextToken p) h0.1, ?_⟩
    intro hleft heq
    have hg : optGood right = true := h0.2 heq
    rw [← h1]
    simp [optGood, exprOK, hleft, optGood_optExprOK hg]

theorem c2grp_step (n : Nat) (ih : C2All n) : C2Grp (n + 1) := by
  obtain ⟨hPE, hLoop, hPfx, hInfx, hGrp, hIf, hFn, hFnP, hFnPL, hCall, hEL, hELL,
    hBlk, hBlkL, hLet, hRet, hES, hStmt, hProgL⟩ := ih
  intro p r p' h
  rw [parseGroupedExpression] at h
  cases hx : parseExpression n (nextToken p) LOWEST with
  | none => rw [hx] at h; exact absurd h (by simp)
  | some ep =>
    obtain ⟨e, p2⟩ := ep
    rw [hx] at h
    replace h : (match expectPeek .RPAREN p2 with
      | (false, p3) => some (none, p3)
      | (true, p3) => some (e, p3)) = some (r, p') := h
    have h0 := hPE _ _ _ _ hx
    have ep2 : Epre p p2 := epre_trans (epre_nextToken p) h0.1
    rcases expectPeek_cases .RPAREN p2 with ⟨he, _⟩ | ⟨he, _⟩ <;> rw [he] at h <;>
      simp only [Option.some.injEq, Prod.mk.injEq] at h <;> obtain ⟨h1, h2⟩ := h
    · refine ⟨epre_trans ep2 (h2 ▸ epre_nextToken p2), ?_⟩
      intro heq
      rw [← h1]
      apply h0.2
      have : p'.errors = p2.errors := by rw [← h2]; rfl
      rw [← this, heq]
      rfl
    · refine ⟨epre_trans ep2 (h2 ▸ epre_peekError _ _), ?_⟩
      intro heq
      obtain ⟨q1, q2⟩ := epre_squeeze ep2 (h2 ▸ epre_peekError .RPAREN p2) heq
      exact absurd (h2 ▸ q2) (peekError_errors_ne .RPAREN p2)

theorem c2loop_step (n : Nat) (ih : C2All n) : C2Loop (n + 1) := by
  obtain ⟨hPE, hLoop, hPfx, hInfx, hGrp, hIf, hFn, hFnP, hFnPL, hCall, hEL, hELL,
    hBlk, hBlkL, hLet, hRet, hES, hStmt, hProgL⟩ := ih
  intro p left precedence r p' h
  rw [parseExpressionLoop] at h
  by_cases hcnd : p.peekToken.type ≠ .SEMICOLON ∧ precedence < peekPrecedence p
  · rw [if_pos hcnd] at h
    by_cases hbin : isBinaryOp p.peekToken.type = true
    · rw [if_pos hbin] at h
      cases hx : parseInfixExpression n (nextToken p) left with
      | none => rw [hx] at h; exact absurd h (by simp)
      | some lp =>
        obtain ⟨l1, p1⟩ := lp
        rw [hx] at h
        have h1 := hInfx _ _ _ _ hx
        have h2 := hLoop _ _ _ _ _ h
        have ep1 : Epre p p1 := epre_trans (epre_nextToken p) h1.1
        refine ⟨epre_trans ep1 h2.1, ?_⟩
        intro hgleft heq
        obtain ⟨q1, q2⟩ := epre_squeeze ep1 h2.1 heq
        exact h2.2 (h1.2 (optGood_optExprOK hgleft) q1) q2
    · rw [if_neg hbin] at h
      by_cases hlp : p.peekToken.type = .LPAREN
      · rw [if_pos hlp] at h
        cases hx : parseCallExpression n (nextToken p) left with
        | none => rw [hx] at h; exact absurd h (by simp)
        | some lp =>
          obtain ⟨l1, p1⟩ := lp
          rw [hx] at h
          have h1 := hCall _ _ _ _ hx
          have h2 := hLoop _ _ _ _ _ h
          have ep1 : Epre p p1 := epre_trans (epre_nextToken p) h1.1
          refine ⟨epre_trans ep1 h2.1, ?_⟩
          intro hgleft heq
          obtain ⟨q1, q2⟩ := epre_squeeze ep1 h2.1 heq
          exact h2.2 (h1.2 (optGood_optExprOK hgleft) q1) q2
      · rw [if_neg hlp] at h
        simp only [Option.some.injEq, Prod.mk.injEq] at h
        obtain ⟨h1, h2⟩ := h
        subst h2
        exact ⟨epre_self p, fun hg _ => h1 ▸ hg⟩
  · rw [if_neg hcnd] at h
    simp only [Option.some.injEq, Prod.mk.injEq] at h
    obtain ⟨h1, h2⟩ := h
    subst h2
    exact ⟨epre_self p, fun hg _ => h1 ▸ hg⟩

theorem c2pe_step (n : Nat) (ih : C2All n) : C2PE (n + 1) := by
  have ihc := ih
  obtain ⟨hPE, hLoop, hPfx, hInfx, hGrp, hIf, hFn, hFnP, hFnPL, hCall, hEL, hELL,
    hBlk, hBlkL, hLet, hRet, hES, hStmt, hProgL⟩ := ih
  intro p precedence r p' h
  rw [parseExpression] at h
  by_cases t1 : p.curToken.type = .IDENT
  · rw [if_pos t1] at h
    have h2 := hLoop _ _ _ _ _ h
    exact ⟨h2.1, fun heq => h2.2 (by simp [optGood, parseIdentifier, exprOK]) heq⟩
  · rw [if_neg t1] at h
    by_cases t2 : p.curToken.type = .INT
    · rw [if_pos t2] at h
      try simp only at h
      have hil := c2_parseIntegerLiteral p
      have h2 := hLoop _ _ _ _ _ h
      refine ⟨epre_trans hil.1 h2.1, fun heq => ?_⟩
      obtain ⟨q1, q2⟩ := epre_squeeze hil.1 h2.1 heq
      exact h2.2 (hil.2 q1) q2
    · rw [if_neg t2] at h
      by_cases t3 : p.curToken.type = .BANG ∨ p.curToken.type = .MINUS
      · rw [if_pos t3] at h
        cases hx : parsePrefixExpression n p with
        | none => rw [hx] at h; exact absurd h (by simp)
        | some lp =>
          obtain ⟨l, p1⟩ := lp
          rw [hx] at h
          have h1 := hPfx _ _ _ hx
          have h2 := hLoop _ _ _ _ _ h
          refine ⟨epre_trans h1.1 h2.1, fun heq => ?_⟩
          obtain ⟨q1, q2⟩ := epre_squeeze h1.1 h2.1 heq
          exact h2.2 (h1.2 q1) q2
      · rw [if_neg t3] at h
        by_cases t4 : p.curToken.type = .TRUE ∨ p.curToken.type = .FALSE
        · rw [if_pos t4] at h
          have h2 := hLoop _ _ _ _ _ h
          exact ⟨h2.1, fun heq => h2.2 (by simp [optGood, parseBoolean, exprOK]) heq⟩
        · rw [if_neg t4] at h
          by_cases t5 : p.curToken.type = .LPAREN
          · rw [if_pos t5] at h
            cases hx : parseGroupedExpression n p with
            | none => rw [hx] at h; exact absurd h (by simp)
            | some lp =>
              obtain ⟨l, p1⟩ := lp
              rw [hx] at h
              have h1 := hGrp _ _ _ hx
              have h2 := hLoop _ _ _ _ _ h
              refine ⟨epre_trans h1.1 h2.1, fun heq => ?_⟩
              obtain ⟨q1, q2⟩ := epre_squeeze h1.1 h2.1 heq
              exact h2.2 (h1.2 q1) q2
          · rw [if_neg t5] at h
            by_cases t6 : p.curToken.type = .IF
            · rw [if_pos t6] at h
              cases hx : parseIfExpression n p with
              | none => rw [hx] at h; exact absurd h (by simp)
              | some lp =>
                obtain ⟨l, p1⟩ := lp
                rw [hx] at h
                have h1 := hIf _ _ _ hx
                have h2 := hLoop _ _ _ _ _ h
                refine ⟨epre_trans h1.1 h2.1, fun heq => ?_⟩
                obtain ⟨q1, q2⟩ := epre_squeeze h1.1 h2.1 heq
                exact h2.2 (h1.2 q1) q2
            · rw [if_neg t6] at h
              by_cases t7 : p.curToken.type = .FUNCTION
              · rw [if_pos t7] at h
                cases hx : parseFunctionLiteral n p with
                | none => rw [hx] at h; exact absurd h (by simp)
                | some lp =>
                  obtain ⟨l, p1⟩ := lp
                  rw [hx] at h
                  have h1 := hFn _ _ _ hx
                  have h2 := hLoop _ _ _ _ _ h
                  refine ⟨epre_trans h1.1 h2.1, fun heq => ?_⟩
                  obtain ⟨q1, q2⟩ := epre_squeeze h1.1 h2.1 heq
                  exact h2.2 (h1.2 q1) q2
              · rw [if_neg t7] at h
                by_cases t8 : p.curToken.type = .STRING
                · rw [if_pos t8] at h
                  have h2 := hLoop _ _ _ _ _ h
                  exact ⟨h2.1, fun heq => h2.2 (by simp [optGood, parseStringLiteral, exprOK]) heq⟩
                · rw [if_neg t8] at h
                  simp only [Option.some.injEq, Prod.mk.injEq] at h
                  obtain ⟨h1, h2⟩ := h
                  refine ⟨h2 ▸ epre_noPrefix _ _, fun heq => ?_⟩
                  exact absurd (h2 ▸ heq) (noPrefix_errors_ne _ p)

theorem expectPeek_false_state {t : TokenType} {p q : Parser}
    (h : expectPeek t p = (false, q)) : q = peekError t p := by
  rcases expectPeek_cases t p with ⟨he, _⟩ | ⟨he, _⟩ <;> rw [he] at h <;>
    simp only [Prod.mk.injEq] at h
  · exact absurd h.1 (by simp)
  · exact h.2.symm

theorem expectPeek_true_state {t : TokenType} {p q : Parser}
    (h : expectPeek t p = (true, q)) : q = nextToken p ∧ p.peekToken.type = t := by
  rcases expectPeek_cases t p with ⟨he, ht⟩ | ⟨he, ht⟩ <;> rw [he] at h <;>
    simp only [Prod.mk.injEq] at h
  · exact ⟨h.2.symm, ht⟩
  · exact absurd h.1 (by simp)

theorem epre_congr_left {p q r : Parser} (h : Epre q r) (he : q.errors = p.errors) :
    Epre p r := by
  obtain ⟨tl, htl⟩ := h
  exact ⟨tl, by rw [htl, he]⟩

theorem c2blkl_step (n : Nat) (ih : C2All n) : C2BlkL (n + 1) := by
  obtain ⟨hPE, hLoop, hPfx, hInfx, hGrp, hIf, hFn, hFnP, hFnPL, hCall, hEL, hELL,
    hBlk, hBlkL, hLet, hRet, hES, hStmt, hProgL⟩ := ih
  intro p acc r p' h
  rw [parseBlockLoop] at h
  by_cases hc : p.curToken.type ≠ .RBRACE ∧ p.curToken.type ≠ .EOF
  · rw [if_pos hc] at h
    cases hx : parseStatement n p with
    | none => rw [hx] at h; exact absurd h (by simp)
    | some sp =>
      obtain ⟨stmt, p1⟩ := sp
      rw [hx] at h
      try simp only at h
      have h1 := hStmt _ _ _ hx
      have h2 := hBlkL _ _ _ _ h
      have e2 : Epre p1 p' := epre_trans (epre_nextToken p1) h2.1
      refine ⟨epre_trans h1.1 e2, fun hacc heq => ?_⟩
      obtain ⟨q1, q2⟩ := epre_squeeze h1.1 e2 heq
      have hs := h1.2 q1
      refine h2.2 ?_ q2
      clear h h1 hx
      cases stmt with
      | none => exact hacc
      | some s =>
        rw [stmtListOK_append]
        simp only [optStmtOK] at hs
        simp [hacc, hs]
  · rw [if_neg hc] at h
    simp only [Option.some.injEq, Prod.mk.injEq] at h
    obtain ⟨h1, h2⟩ := h
    subst h2
    exact ⟨epre_self p, fun hacc _ => h1 ▸ hacc⟩

theorem c2blk_step (n : Nat) (ih : C2All n) : C2Blk (n + 1) := by
  obtain ⟨hPE, hLoop, hPfx, hInfx, hGrp, hIf, hFn, hFnP, hFnPL, hCall, hEL, hELL,
    hBlk, hBlkL, hLet, hRet, hES, hStmt, hProgL⟩ := ih
  intro p r p' h
  rw [parseBlockStatement] at h
  try simp only at h
  cases hx : parseBlockLoop n (nextToken p) [] with
  | none => rw [hx] at h; exact absurd h (by simp)
  | some sp =>
    obtain ⟨stmts, p2⟩ := sp
    rw [hx] at h
    simp only [Option.some.injEq, Prod.mk.injEq] at h
    obtain ⟨h1, h2⟩ := h
    subst h2
    have h0 := hBlkL _ _ _ _ hx
    refine ⟨epre_trans (epre_nextToken p) h0.1, fun heq => ?_⟩
    rw [← h1]
    have := h0.2 (by simp [stmtListOK]) heq
    simpa [blockOK] using this

theorem c2let_step (n : Nat) (ih : C2All n) : C2Let (n + 1) := by
  obtain ⟨hPE, hLoop, hPfx, hInfx, hGrp, hIf, hFn, hFnP, hFnPL, hCall, hEL, hELL,
    hBlk, hBlkL, hLet, hRet, hES, hStmt, hProgL⟩ := ih
  intro p r p' h
  rw [parseLetStatement] at h
  try simp only at h
  split at h
  next p1 heq1 =>
    simp only [Option.some.injEq, Prod.mk.injEq] at h
    obtain ⟨h1, h2⟩ := h
    have hq := expectPeek_false_state heq1
    subst h2
    refine ⟨hq ▸ epre_peekError _ _, fun heq => ?_⟩
    rw [hq] at heq
    exact absurd heq (peekError_errors_ne _ _)
  next p1 heq1 =>
    obtain ⟨hq1, -⟩ := expectPeek_true_state heq1
    subst hq1
    split at h
    next p2 heq2 =>
      simp only [Option.some.injEq, Prod.mk.injEq] at h
      obtain ⟨h1, h2⟩ := h
      have hq := expectPeek_false_state heq2
      subst h2
      refine ⟨epre_congr_left (hq ▸ epre_peekError _ _) rfl, fun heq => ?_⟩
      rw [hq] at heq
      exact absurd heq (peekError_errors_ne _ _)
    next p2 heq2 =>
      obtain ⟨hq2, -⟩ := expectPeek_true_state heq2
      subst hq2
      split at h
      next hx => exact absurd h (by simp)
      next value p4 hx =>
        simp only [Option.some.injEq, Prod.mk.injEq] at h
        obtain ⟨h1, h2⟩ := h
        have h0 := hPE _ _ _ _ hx
        have e1 : Epre p p4 := epre_congr_left h0.1 rfl
        have e2 : p'.errors = p4.errors := by rw [← h2]; exact semiskip_errors _ _
        refine ⟨epre_trans e1 (epre_of_eq e2), fun heq => ?_⟩
        have q1 : p4.errors = p.errors := by rw [← heq, e2]
        have hg := h0.2 q1
        rw [← h1]
        simp [optStmtOK, stmtOK, optGood_isSome_ok hg]

theorem c2ret_step (n : Nat) (ih : C2All n) : C2Ret (n + 1) := by
  obtain ⟨hPE, hLoop, hPfx, hInfx, hGrp, hIf, hFn, hFnP, hFnPL, hCall, hEL, hELL,
    hBlk, hBlkL, hLet, hRet, hES, hStmt, hProgL⟩ := ih
  intro p r p' h
  rw [parseReturnStatement] at h
  try simp only at h
  cases hx : parseExpression n (nextToken p) LOWEST with
  | none => rw [hx] at h; exact absurd h (by simp)
  | some vp =>
    obtain ⟨rv, p2⟩ := vp
    rw [hx] at h
    simp only [Option.some.injEq, Prod.mk.injEq] at h
    obtain ⟨h1, h2⟩ := h
    have h0 := hPE _ _ _ _ hx
    have e1 : Epre p p2 := epre_congr_left h0.1 rfl
    have e2 : p'.errors = p2.errors := by rw [← h2]; exact semiskip_errors _ _
    refine ⟨epre_trans e1 (epre_of_eq e2), fun heq => ?_⟩
    have q1 : p2.errors = p.errors := by rw [← heq, e2]
    have hg := h0.2 q1
    rw [← h1]
    simp [optStmtOK, stmtOK, optGood_isSome_ok hg]

theorem c2es_step (n : Nat) (ih : C2All n) : C2ES (n + 1) := by
  obtain ⟨hPE, hLoop, hPfx, hInfx, hGrp, hIf, hFn, hFnP, hFnPL, hCall, hEL, hELL,
    hBlk, hBlkL, hLet, hRet, hES, hStmt, hProgL⟩ := ih
  intro p r p' h
  rw [parseExpressionStatement] at h
  try simp only at h
  cases hx : parseExpression n p LOWEST with
  | none => rw [hx] at h; exact absurd h (by simp)
  | some ep =>
    obtain ⟨e, p1⟩ := ep
    rw [hx] at h
    simp only [Option.some.injEq, Prod.mk.injEq] at h
    obtain ⟨h1, h2⟩ := h
    have h0 := hPE _ _ _ _ hx
    have e2 : p'.errors = p1.errors := by rw [← h2]; exact semiskip_errors _ _
    refine ⟨epre_trans h0.1 (epre_of_eq e2), fun heq => ?_⟩
    have q1 : p1.errors = p.errors := by rw [← heq, e2]
    have hg := h0.2 q1
    rw [← h1]
    simp [optStmtOK, stmtOK, optGood_optExprOK hg]

theorem c2stmt_step (n : Nat) (ih : C2All n) : C2Stmt (n + 1) := by
  have ihc := ih
  obtain ⟨hPE, hLoop, hPfx, hInfx, hGrp, hIf, hFn, hFnP, hFnPL, hCall, hEL, hELL,
    hBlk, hBlkL, hLet, hRet, hES, hStmt, hProgL⟩ := ihc
  intro p r p' h
  rw [parseStatement] at h
  by_cases t1 : p.curToken.type = .LET
  · rw [if_pos t1] at h
    exact hLet _ _ _ h
  · rw [if_neg t1] at h
    by_cases t2 : p.curToken.type = .RETURN
    · rw [if_pos t2] at h
      exact hRet _ _ _ h
    · rw [if_neg t2] at h
      exact hES _ _ _ h

theorem c2progl_step (n : Nat) (ih : C2All n) : C2ProgL (n + 1) := by
  obtain ⟨hPE, hLoop, hPfx, hInfx, hGrp, hIf, hFn, hFnP, hFnPL, hCall, hEL, hELL,
    hBlk, hBlkL, hLet, hRet, hES, hStmt, hProgL⟩ := ih
  intro p acc r p' h
  rw [parseProgramLoop] at h
  by_cases hc : p.curToken.type ≠ .EOF
  · rw [if_pos hc] at h
    cases hx : parseStatement n p with
    | none => rw [hx] at h; exact absurd h (by simp)
    | some sp =>
      obtain ⟨stmt, p1⟩ := sp
      rw [hx] at h
      try simp only at h
      have h1 := hStmt _ _ _ hx
      have h2 := hProgL _ _ _ _ h
      have e2 : Epre p1 p' := epre_trans (epre_nextToken p1) h2.1
      refine ⟨epre_trans h1.1 e2, fun hacc heq => ?_⟩
      obtain ⟨q1, q2⟩ := epre_squeeze h1.1 e2 heq
      have hs := h1.2 q1
      refine h2.2 ?_ q2
      clear h h1 hx
      cases stmt with
      | none => exact hacc
      | some s =>
        rw [stmtListOK_append]
        simp only [optStmtOK] at hs
        simp [hacc, hs]
  · rw [if_neg hc] at h
    simp only [Option.some.injEq, Prod.mk.injEq] at h
    obtain ⟨h1, h2⟩ := h
    subst h2
    exact ⟨epre_self p, fun hacc _ => h1 ▸ hacc⟩

theorem c2fn_step (n : Nat) (ih : C2All n) : C2Fn (n + 1) := by
  obtain ⟨hPE, hLoop, hPfx, hInfx, hGrp, hIf, hFn, hFnP, hFnPL, hCall, hEL, hELL,
    hBlk, hBlkL, hLet, hRet, hES, hStmt, hProgL⟩ := ih
  intro p r p' h
  rw [parseFunctionLiteral] at h
  try simp only at h
  split at h
  next p1 heq1 =>
    simp only [Option.some.injEq, Prod.mk.injEq] at h
    obtain ⟨h1, h2⟩ := h
    have hq := expectPeek_false_state heq1
    subst h2
    refine ⟨hq ▸ epre_peekError _ _, fun heq => ?_⟩
    rw [hq] at heq
    exact absurd heq (peekError_errors_ne _ _)
  next p1 heq1 =>
    obtain ⟨hq1, -⟩ := expectPeek_true_state heq1
    subst hq1
    split at h
    next hx => exact absurd h (by simp)
    next params p2 hx =>
      have h1 := hFnP _ _ _ hx
      have e1 : Epre p p2 := epre_congr_left h1 rfl
      split at h
      next p3 heq2 =>
        simp only [Option.some.injEq, Prod.mk.injEq] at h
        obtain ⟨ha, hb⟩ := h
        have hq := expectPeek_false_state heq2
        subst hb
        refine ⟨epre_trans e1 (hq ▸ epre_peekError _ _), fun heq => ?_⟩
        obtain ⟨q1, q2⟩ := epre_squeeze e1 (hq ▸ epre_peekError .LBRACE p2) heq
        exact absurd (hq ▸ q2) (peekError_errors_ne .LBRACE p2)
      next p3 heq2 =>
        obtain ⟨hq2, -⟩ := expectPeek_true_state heq2
        subst hq2
        split at h
        next hx2 => exact absurd h (by simp)
        next body p4 hx2 =>
          simp only [Option.some.injEq, Prod.mk.injEq] at h
          obtain ⟨ha, hb⟩ := h
          subst hb
          have hblk := hBlk _ _ _ hx2
          have e2 : Epre p2 p4 := epre_congr_left hblk.1 rfl
          refine ⟨epre_trans e1 e2, fun heq => ?_⟩
          obtain ⟨q1, q2⟩ := epre_squeeze e1 e2 heq
          have hg : blockOK body = true := hblk.2 q2
          rw [← ha]
          simp [optGood, exprOK, hg]

theorem c2if_step (n : Nat) (ih : C2All n) : C2If (n + 1) := by
  obtain ⟨hPE, hLoop, hPfx, hInfx, hGrp, hIf, hFn, hFnP, hFnPL, hCall, hEL, hELL,
    hBlk, hBlkL, hLet, hRet, hES, hStmt, hProgL⟩ := ih
  intro p r p' h
  rw [parseIfExpression] at h
  try simp only at h
  split at h
  next p1 heq1 =>
    simp only [Option.some.injEq, Prod.mk.injEq] at h
    obtain ⟨h1, h2⟩ := h
    have hq := expectPeek_false_state heq1
    subst h2
    refine ⟨hq ▸ epre_peekError _ _, fun heq => ?_⟩
    rw [hq] at heq
    exact absurd heq (peekError_errors_ne _ _)
  next p1 heq1 =>
    obtain ⟨hq1, -⟩ := expectPeek_true_state heq1
    subst hq1
    split at h
    next hx => exact absurd h (by simp)
    next cond p3 hx =>
      have h0 := hPE _ _ _ _ hx
      have e1 : Epre p p3 := epre_congr_left h0.1 rfl
      split at h
      next p4 heq2 =>
        simp only [Option.some.injEq, Prod.mk.injEq] at h
        obtain ⟨ha, hb⟩ := h
        have hq := expectPeek_false_state heq2
        subst hb
        refine ⟨epre_trans e1 (hq ▸ epre_peekError _ _), fun heq => ?_⟩
        obtain ⟨q1, q2⟩ := epre_squeeze e1 (hq ▸ epre_peekError .RPAREN p3) heq
        exact absurd (hq ▸ q2) (peekError_errors_ne .RPAREN p3)
      next p4 heq2 =>
        obtain ⟨hq2, -⟩ := expectPeek_true_state heq2
        subst hq2
        split at h
        next p5 heq3 =>
          simp only [Option.some.injEq, Prod.mk.injEq] at h
          obtain ⟨ha, hb⟩ := h
          have hq := expectPeek_false_state heq3
          subst hb
          have eb : Epre p3 p5 := epre_congr_left (hq ▸ epre_peekError .LBRACE (nextToken p3)) rfl
          refine ⟨epre_trans e1 eb, fun heq => ?_⟩
          obtain ⟨q1, q2⟩ := epre_squeeze e1 eb heq
          have : p5.errors = (nextToken p3).errors := q2
          exact absurd (hq ▸ this) (peekError_errors_ne .LBRACE (nextToken p3))
        next p5 heq3 =>
          obtain ⟨hq3, -⟩ := expectPeek_true_state heq3
          subst hq3
          split at h
          next hx2 => exact absurd h (by simp)
          next cons p6 hx2 =>
            have hblk := hBlk _ _ _ hx2
            have e2 : Epre p3 p6 := epre_congr_left hblk.1 rfl
            by_cases hel : p6.peekToken.type = .ELSE
            · rw [if_pos hel] at h
              split at h
              next p8 heq4 =>
                simp only [Option.some.injEq, Prod.mk.injEq] at h
                obtain ⟨ha, hb⟩ := h
                have hq := expectPeek_false_state heq4
                subst hb
                have e3 : Epre p6 p8 :=
                  epre_congr_left (hq ▸ epre_peekError .LBRACE (nextToken p6)) rfl
                refine ⟨epre_trans e1 (epre_trans e2 e3), fun heq => ?_⟩
                obtain ⟨q1, q23⟩ := epre_squeeze e1 (epre_trans e2 e3) heq
                obtain ⟨q2, q3⟩ := epre_squeeze e2 e3 q23
                have : p8.errors = (nextToken p6).errors := q3
                exact absurd (hq ▸ this) (peekError_errors_ne .LBRACE (nextToken p6))
              next p8 heq4 =>
                obtain ⟨hq4, -⟩ := expectPeek_true_state heq4
                subst hq4
                split at h
                next hx3 => exact absurd h (by simp)
                next alt p9 hx3 =>
                  simp only [Option.some.injEq, Prod.mk.injEq] at h
                  obtain ⟨ha, hb⟩ := h
                  subst hb
                  have hblk2 := hBlk _ _ _ hx3
                  have e3 : Epre p6 p9 := epre_congr_left hblk2.1 rfl
                  refine ⟨epre_trans e1 (epre_trans e2 e3), fun heq => ?_⟩
                  obtain ⟨q1, q23⟩ := epre_squeeze e1 (epre_trans e2 e3) heq
                  obtain ⟨q2, q3⟩ := epre_squeeze e2 e3 q23
                  have hg1 := h0.2 q1
                  have hg2 := hblk.2 q2
                  have hg3 := hblk2.2 q3
                  rw [← ha]
                  simp [optGood, exprOK, optGood_optExprOK hg1, hg2, optBlockOK, hg3]
            · rw [if_neg hel] at h
              simp only [Option.some.injEq, Prod.mk.injEq] at h
              obtain ⟨ha, hb⟩ := h
              subst hb
              refine ⟨epre_trans e1 e2, fun heq => ?_⟩
              obtain ⟨q1, q2⟩ := epre_squeeze e1 e2 heq
              have hg1 := h0.2 q1
              have hg2 := hblk.2 q2
              rw [← ha]
              simp [optGood, exprOK, optGood_optExprOK hg1, hg2, optBlockOK]

theorem c2_all : ∀ n, C2All n := by
  intro n
  induction n with
  | zero => exact c2_zero
  | succ n ih =>
    exact ⟨c2pe_step n ih, c2loop_step n ih, c2pfx_step n ih, c2infx_step n ih,
      c2grp_step n ih, c2if_step n ih, c2fn_step n ih, c2fnp_step n ih, c2fnpl_step n ih,
      c2call_step n ih, c2el_step n ih, c2ell_step n ih, c2blk_step n ih, c2blkl_step n ih,
      c2let_step n ih, c2ret_step n ih, c2es_step n ih, c2stmt_step n ih, c2progl_step n ih⟩

/-- C2: whenever ParseProgram returns with an empty error list, every
LetStatement in the returned Program (at any nesting depth) has a
non-null Value and every ReturnStatement a non-null ReturnValue; the
error-growth half of the induction shows that a nil sub-parse always
leaves at least one recorded error behind. -/
theorem successful_parse_nonnull_values (fuel : Nat) (ts : List Token)
    (prog : Program) (st : Parser)
    (h : parseProgramWithState fuel ts = some (prog, st)) (he : st.errors = []) :
    progOK prog = true := by
  unfold parseProgramWithState at h
  cases hx : parseProgramLoop fuel (newParser ts) [] with
  | none => rw [hx] at h; exact absurd h (by simp)
  | some sp =>
    obtain ⟨stmts, p⟩ := sp
    rw [hx] at h
    simp only [Option.some.injEq, Prod.mk.injEq] at h
    obtain ⟨h1, h2⟩ := h
    obtain ⟨-, -, -, -, -, -, -, -, -, -, -, -, -, -, -, -, -, -, hProgL⟩ := c2_all fuel
    have h0 := hProgL _ _ _ _ hx
    have hp : p.errors = (newParser ts).errors := by
      rw [h2, he]; rfl
    have hok : stmtListOK stmts = true := h0.2 (by simp [stmtListOK]) hp
    rw [← h1]
    simpa [progOK] using hok

/-- Witness for C2: parsing the single-identifier program `x` ends with
no errors and the returned program satisfies the invariant. -/
theorem successful_parse_nonnull_values_witness :
    progOK ⟨[.expressionStatement (tk .IDENT "x")
      (some (.identifier (tk .IDENT "x") "x"))]⟩ = true :=
  successful_parse_nonnull_values 9 [tk .IDENT "x"]
    ⟨[.expressionStatement (tk .IDENT "x") (some (.identifier (tk .IDENT "x") "x"))]⟩
    ⟨[], eofToken, eofToken, []⟩ rfl rfl

/-! ## The C4 measure and invariant lemmas -/

theorem inv_nextToken {p : Parser} (h : inv p) : inv (nextToken p) := by
  obtain ⟨h1, h2, h3⟩ := h
  refine ⟨?_, ?_, ?_⟩
  · intro t ht
    exact h1 t (List.mem_of_mem_tail ht)
  · intro hpk
    cases hr : p.rest with
    | nil => simp [nextToken, hr]
    | cons a as =>
      exfalso
      simp [nextToken, hr] at hpk
      exact h1 a (by simp [hr]) hpk
  · intro hc
    have : p.rest = [] := h2 hc
    simp [nextToken, this, eofToken]

theorem mu_nextToken_le {p : Parser} (h : inv p) : mu (nextToken p) ≤ mu p := by
  obtain ⟨h1, h2, h3⟩ := h
  cases hr : p.rest with
  | nil =>
    simp only [mu, nextToken, hr, List.headD, List.tail, List.length]
    split_ifs <;> simp_all [eofToken]
  | cons a as =>
    have ha : a.type ≠ .EOF := h1 a (by simp [hr])
    simp only [mu, nextToken, hr, List.headD, List.tail, List.length]
    split_ifs <;> simp_all

theorem mu_nextToken_lt {p : Parser} (h : inv p) (hc : p.curToken.type ≠ .EOF) :
    mu (nextToken p) < mu p := by
  obtain ⟨h1, h2, h3⟩ := h
  cases hr : p.rest with
  | nil =>
    simp only [mu, nextToken, hr, List.headD, List.tail, List.length]
    split_ifs <;> simp_all [eofToken]
  | cons a as =>
    have ha : a.type ≠ .EOF := h1 a (by simp [hr])
    simp only [mu, nextToken, hr, List.headD, List.tail, List.length]
    split_ifs <;> simp_all

theorem cur_ne_eof_of_peek {p : Parser} (h : inv p) (hp : p.peekToken.type ≠ .EOF) :
    p.curToken.type ≠ .EOF :=
  fun hc => hp (h.2.2 hc)

theorem nextToken_cur_eof {p : Parser} (h : inv p) (hc : p.curToken.type = .EOF) :
    (nextToken p).curToken.type = .EOF := by
  simpa [nextToken] using h.2.2 hc

theorem c4_zero : C4All 0 := by
  refine ⟨?_, ?_, ?_, ?_, ?_, ?_, ?_, ?_, ?_, ?_, ?_, ?_, ?_, ?_, ?_, ?_, ?_, ?_, ?_⟩ <;>
    (simp only [C4PE, C4Loop, C4Pfx, C4Infx, C4Grp, C4If, C4Fn, C4FnP, C4FnPL, C4Call,
       C4EL, C4ELL, C4Blk, C4BlkL, C4Let, C4Ret, C4ES, C4Stmt, C4ProgL]
     intros
     omega)

theorem c4pfx_step (n : Nat) (ih : C4All n) : C4Pfx (n + 1) := by
  obtain ⟨hPE, hLoop, hPfx, hInfx, hGrp, hIf, hFn, hFnP, hFnPL, hCall, hEL, hELL,
    hBlk, hBlkL, hLet, hRet, hES, hStmt, hProgL⟩ := ih
  intro p hinv hcur hfuel
  have hlt := mu_nextToken_lt hinv hcur
  obtain ⟨right, p2, hx, hinv2, hmu2⟩ :=
    hPE (nextToken p) PREC6 (inv_nextToken hinv) (by omega)
  refine ⟨some (.prefixExpression p.curToken p.curToken.literal right), p2, ?_, hinv2, by omega⟩
  simp only [parsePrefixExpression, hx]

theorem c4infx_step (n : Nat) (ih : C4All n) : C4Infx (n + 1) := by
  obtain ⟨hPE, hLoop, hPfx, hInfx, hGrp, hIf, hFn, hFnP, hFnPL, hCall, hEL, hELL,
    hBlk, hBlkL, hLet, hRet, hES, hStmt, hProgL⟩ := ih
  intro p left hinv hcur hfuel
  have hlt := mu_nextToken_lt hinv hcur
  obtain ⟨right, p2, hx, hinv2, hmu2⟩ :=
    hPE (nextToken p) (curPrecedence p) (inv_nextToken hinv) (by omega)
  refine ⟨some (.infixExpression p.curToken left p.curToken.literal right), p2, ?_, hinv2,
    by omega⟩
  simp only [parseInfixExpression, hx]

theorem c4grp_step (n : Nat) (ih : C4All n) : C4Grp (n + 1) := by
  obtain ⟨hPE, hLoop, hPfx, hInfx, hGrp, hIf, hFn, hFnP, hFnPL, hCall, hEL, hELL,
    hBlk, hBlkL, hLet, hRet, hES, hStmt, hProgL⟩ := ih
  intro p hinv hcur hfuel
  have hlt := mu_nextToken_lt hinv hcur
  obtain ⟨e, p2, hx, hinv2, hmu2⟩ :=
    hPE (nextToken p) LOWEST (inv_nextToken hinv) (by omega)
  rcases expectPeek_cases .RPAREN p2 with ⟨he, hpt⟩ | ⟨he, hpt⟩
  · refine ⟨e, nextToken p2, ?_, inv_nextToken hinv2, ?_⟩
    · simp only [parseGroupedExpression, hx, he]
    · have := mu_nextToken_le hinv2
      omega
  · refine ⟨none, peekError .RPAREN p2, ?_, hinv2, ?_⟩
    · simp only [parseGroupedExpression, hx, he]
    · have : mu (peekError .RPAREN p2) = mu p2 := rfl
      omega

theorem c4ell_step (n : Nat) (ih : C4All n) : C4ELL (n + 1) := by
  obtain ⟨hPE, hLoop, hPfx, hInfx, hGrp, hIf, hFn, hFnP, hFnPL, hCall, hEL, hELL,
    hBlk, hBlkL, hLet, hRet, hES, hStmt, hProgL⟩ := ih
  intro p acc endT hinv hfuel
  by_cases hc : p.peekToken.type = .COMMA
  · have hcur : p.curToken.type ≠ .EOF := cur_ne_eof_of_peek hinv (by rw [hc]; simp)
    have hlt := mu_nextToken_lt hinv hcur
    have hle2 := mu_nextToken_le (inv_nextToken hinv)
    obtain ⟨e, p2, hx, hinv2, hmu2⟩ :=
      hPE (nextToken (nextToken p)) LOWEST (inv_nextToken (inv_nextToken hinv)) (by omega)
    obtain ⟨r, p', hrec, hinv', hmu'⟩ := hELL p2 (acc ++ [e]) endT hinv2 (by omega)
    refine ⟨r, p', ?_, hinv', by omega⟩
    simp only [parseExpressionListLoop, hc, if_true, hx, hrec]
  · rcases expectPeek_cases endT p with ⟨he, hpt⟩ | ⟨he, hpt⟩
    · refine ⟨some acc, nextToken p, ?_, inv_nextToken hinv, mu_nextToken_le hinv⟩
      simp only [parseExpressionListLoop, hc, if_false, he]
    · refine ⟨none, peekError endT p, ?_, hinv, ?_⟩
      · simp only [parseExpressionListLoop, hc, if_false, he]
      · have : mu (peekError endT p) = mu p := rfl
        omega

theorem c4el_step (n : Nat) (ih : C4All n) : C4EL (n + 1) := by
  obtain ⟨hPE, hLoop, hPfx, hInfx, hGrp, hIf, hFn, hFnP, hFnPL, hCall, hEL, hELL,
    hBlk, hBlkL, hLet, hRet, hES, hStmt, hProgL⟩ := ih
  intro p endT hinv hcur hfuel
  by_cases he : p.peekToken.type = endT
  · refine ⟨some [], nextToken p, ?_, inv_nextToken hinv, mu_nextToken_le hinv⟩
    rw [parseExpressionList, if_pos he]
  · have hlt := mu_nextToken_lt hinv hcur
    obtain ⟨e, p2, hx, hinv2, hmu2⟩ :=
      hPE (nextToken p) LOWEST (inv_nextToken hinv) (by omega)
    obtain ⟨r, p', hrec, hinv', hmu'⟩ := hELL p2 [e] endT hinv2 (by omega)
    refine ⟨r, p', ?_, hinv', by omega⟩
    rw [parseExpressionList, if_neg he]
    simp only [hx, hrec]

theorem c4call_step (n : Nat) (ih : C4All n) : C4Call (n + 1) := by
  obtain ⟨hPE, hLoop, hPfx, hInfx, hGrp, hIf, hFn, hFnP, hFnPL, hCall, hEL, hELL,
    hBlk, hBlkL, hLet, hRet, hES, hStmt, hProgL⟩ := ih
  intro p left hinv hcur hfuel
  obtain ⟨args, p1, hx, hinv1, hmu1⟩ := hEL p .RPAREN hinv hcur (by omega)
  refine ⟨some (.callExpression p.curToken left args), p1, ?_, hinv1, hmu1⟩
  simp only [parseCallExpression, hx]

theorem c4fnpl_step (n : Nat) (ih : C4All n) : C4FnPL (n + 1) := by
  obtain ⟨hPE, hLoop, hPfx, hInfx, hGrp, hIf, hFn, hFnP, hFnPL, hCall, hEL, hELL,
    hBlk, hBlkL, hLet, hRet, hES, hStmt, hProgL⟩ := ih
  intro p acc hinv hfuel
  by_cases hc : p.peekToken.type = .COMMA
  · have hcur : p.curToken.type ≠ .EOF := cur_ne_eof_of_peek hinv (by rw [hc]; simp)
    have hlt := mu_nextToken_lt hinv hcur
    have hle2 := mu_nextToken_le (inv_nextToken hinv)
    obtain ⟨r, p', hrec, hinv', hmu'⟩ :=
      hFnPL (nextToken (nextToken p))
        (acc ++ [⟨(nextToken (nextToken p)).curToken, (nextToken (nextToken p)).curToken.literal⟩])
        (inv_nextToken (inv_nextToken hinv)) (by omega)
    refine ⟨r, p', ?_, hinv', by omega⟩
    simp only [parseFunctionParametersLoop, hc, if_true, hrec]
  · rcases expectPeek_cases .RPAREN p with ⟨he, hpt⟩ | ⟨he, hpt⟩
    · refine ⟨some acc, nextToken p, ?_, inv_nextToken hinv, mu_nextToken_le hinv⟩
      simp only [parseFunctionParametersLoop, hc, if_false, he]
    · refine ⟨none, peekError .RPAREN p, ?_, hinv, ?_⟩
      · simp only [parseFunctionParametersLoop, hc, if_false, he]
      · have : mu (peekError .RPAREN p) = mu p := rfl
        omega

theorem c4fnp_step (n : Nat) (ih : C4All n) : C4FnP (n + 1) := by
  obtain ⟨hPE, hLoop, hPfx, hInfx, hGrp, hIf, hFn, hFnP, hFnPL, hCall, hEL, hELL,
    hBlk, hBlkL, hLet, hRet, hES, hStmt, hProgL⟩ := ih
  intro p hinv hcur hfuel
  by_cases hr : p.peekToken.type = .RPAREN
  · refine ⟨some [], nextToken p, ?_, inv_nextToken hinv, mu_nextToken_le hinv⟩
    rw [parseFunctionParameters, if_pos hr]
  · have hlt := mu_nextToken_lt hinv hcur
    obtain ⟨r, p', hrec, hinv', hmu'⟩ :=
      hFnPL (nextToken p) [⟨(nextToken p).curToken, (nextToken p).curToken.literal⟩]
        (inv_nextToken hinv) (by omega)
    refine ⟨r, p', ?_, hinv', by omega⟩
    rw [parseFunctionParameters, if_neg hr]
    exact hrec

theorem c4loop_step (n : Nat) (ih : C4All n) : C4Loop (n + 1) := by
  obtain ⟨hPE, hLoop, hPfx, hInfx, hGrp, hIf, hFn, hFnP, hFnPL, hCall, hEL, hELL,
    hBlk, hBlkL, hLet, hRet, hES, hStmt, hProgL⟩ := ih
  intro p left precedence hinv hfuel
  by_cases hcnd : p.peekToken.type ≠ .SEMICOLON ∧ precedence < peekPrecedence p
  · by_cases hbin : isBinaryOp p.peekToken.type = true
    · have hpne : p.peekToken.type ≠ .EOF := by
        intro h0
        rw [h0] at hbin
        simp [isBinaryOp] at hbin
      have hcur := cur_ne_eof_of_peek hinv hpne
      have hlt := mu_nextToken_lt hinv hcur
      have hcur2 : (nextToken p).curToken.type ≠ .EOF := by simpa [nextToken] using hpne
      obtain ⟨l1, p1, hx, hinv1, hmu1⟩ :=
        hInfx (nextToken p) left (inv_nextToken hinv) hcur2 (by omega)
      obtain ⟨r, p', hrec, hinv', hmu'⟩ := hLoop p1 l1 precedence hinv1 (by omega)
      refine ⟨r, p', ?_, hinv', by omega⟩
      rw [parseExpressionLoop, if_pos hcnd, if_pos hbin]
      simp only [hx, hrec]
    · by_cases hlp : p.peekToken.type = .LPAREN
      · have hpne : p.peekToken.type ≠ .EOF := by rw [hlp]; simp
        have hcur := cur_ne_eof_of_peek hinv hpne
        have hlt := mu_nextToken_lt hinv hcur
        have hcur2 : (nextToken p).curToken.type ≠ .EOF := by simpa [nextToken] using hpne
        obtain ⟨l1, p1, hx, hinv1, hmu1⟩ :=
          hCall (nextToken p) left (inv_nextToken hinv) hcur2 (by omega)
        obtain ⟨r, p', hrec, hinv', hmu'⟩ := hLoop p1 l1 precedence hinv1 (by omega)
        refine ⟨r, p', ?_, hinv', by omega⟩
        rw [parseExpressionLoop, if_pos hcnd, if_neg hbin, if_pos hlp]
        simp only [hx, hrec]
      · refine ⟨left, p, ?_, hinv, Nat.le.refl⟩
        rw [parseExpressionLoop, if_pos hcnd, if_neg hbin, if_neg hlp]
  · refine ⟨left, p, ?_, hinv, Nat.le.refl⟩
    rw [parseExpressionLoop, if_neg hcnd]

theorem c4pe_step (n : Nat) (ih : C4All n) : C4PE (n + 1) := by
  obtain ⟨hPE, hLoop, hPfx, hInfx, hGrp, hIf, hFn, hFnP, hFnPL, hCall, hEL, hELL,
    hBlk, hBlkL, hLet, hRet, hES, hStmt, hProgL⟩ := ih
  intro p precedence hinv hfuel
  by_cases t1 : p.curToken.type = .IDENT
  · obtain ⟨r, p', hrec, hinv', hmu'⟩ := hLoop p (some (parseIdentifier p)) precedence hinv (by omega)
    refine ⟨r, p', ?_, hinv', hmu'⟩
    rw [parseExpression, if_pos t1]
    exact hrec
  · by_cases t2 : p.curToken.type = .INT
    · have hil : inv (parseIntegerLiteral p).2 ∧ mu (parseIntegerLiteral p).2 = mu p := by
        unfold parseIntegerLiteral
        cases goParseInt64 p.curToken.literal with
        | none => exact ⟨hinv, rfl⟩
        | some v => exact ⟨hinv, rfl⟩
      obtain ⟨r, p', hrec, hinv', hmu'⟩ :=
        hLoop (parseIntegerLiteral p).2 (parseIntegerLiteral p).1 precedence hil.1
          (by rw [hil.2]; omega)
      refine ⟨r, p', ?_, hinv', by rw [← hil.2]; exact hmu'⟩
      rw [parseExpression, if_neg t1, if_pos t2]
      exact hrec
    · by_cases t3 : p.curToken.type = .BANG ∨ p.curToken.type = .MINUS
      · have hcur : p.curToken.type ≠ .EOF := by rcases t3 with h | h <;> rw [h] <;> simp
        obtain ⟨l, p1, hx, hinv1, hmu1⟩ := hPfx p hinv hcur (by omega)
        obtain ⟨r, p', hrec, hinv', hmu'⟩ := hLoop p1 l precedence hinv1 (by omega)
        refine ⟨r, p', ?_, hinv', by omega⟩
        rw [parseExpression, if_neg t1, if_neg t2, if_pos t3]
        simp only [hx, hrec]
      · by_cases t4 : p.curToken.type = .TRUE ∨ p.curToken.type = .FALSE
        · obtain ⟨r, p', hrec, hinv', hmu'⟩ :=
            hLoop p (some (parseBoolean p)) precedence hinv (by omega)
          refine ⟨r, p', ?_, hinv', hmu'⟩
          rw [parseExpression, if_neg t1, if_neg t2, if_neg t3, if_pos t4]
          exact hrec
        · by_cases t5 : p.curToken.type = .LPAREN
          · have hcur : p.curToken.type ≠ .EOF := by rw [t5]; simp
            obtain ⟨l, p1, hx, hinv1, hmu1⟩ := hGrp p hinv hcur (by omega)
            obtain ⟨r, p', hrec, hinv', hmu'⟩ := hLoop p1 l precedence hinv1 (by omega)
            refine ⟨r, p', ?_, hinv', by omega⟩
            rw [parseExpression, if_neg t1, if_neg t2, if_neg t3, if_neg t4, if_pos t5]
            simp only [hx, hrec]
          · by_cases t6 : p.curToken.type = .IF
            · obtain ⟨l, p1, hx, hinv1, hmu1⟩ := hIf p hinv (by omega)
              obtain ⟨r, p', hrec, hinv', hmu'⟩ := hLoop p1 l precedence hinv1 (by omega)
              refine ⟨r, p', ?_, hinv', by omega⟩
              rw [parseExpression, if_neg t1, if_neg t2, if_neg t3, if_neg t4, if_neg t5,
                if_pos t6]
              simp only [hx, hrec]
            · by_cases t7 : p.curToken.type = .FUNCTION
              · obtain ⟨l, p1, hx, hinv1, hmu1⟩ := hFn p hinv (by omega)
                obtain ⟨r, p', hrec, hinv', hmu'⟩ := hLoop p1 l precedence hinv1 (by omega)
                refine ⟨r, p', ?_, hinv', by omega⟩
                rw [parseExpression, if_neg t1, if_neg t2, if_neg t3, if_neg t4, if_neg t5,
                  if_neg t6, if_pos t7]
                simp only [hx, hrec]
              · by_cases t8 : p.curToken.type = .STRING
                · obtain ⟨r, p', hrec, hinv', hmu'⟩ :=
                    hLoop p (some (parseStringLiteral p)) precedence hinv (by omega)
                  refine ⟨r, p', ?_, hinv', hmu'⟩
                  rw [parseExpression, if_neg t1, if_neg t2, if_neg t3, if_neg t4, if_neg t5,
                    if_neg t6, if_neg t7, if_pos t8]
                  exact hrec
                · refine ⟨none, noPrefixParseFnError p.curToken.type p, ?_, hinv, ?_⟩
                  · rw [parseExpression, if_neg t1, if_neg t2, if_neg t3, if_neg t4, if_neg t5,
                      if_neg t6, if_neg t7, if_neg t8]
                  · have : mu (noPrefixParseFnError p.curToken.type p) = mu p := rfl
                    omega

theorem c4let_step (n : Nat) (ih : C4All n) : C4Let (n + 1) := by
  obtain ⟨hPE, hLoop, hPfx, hInfx, hGrp, hIf, hFn, hFnP, hFnPL, hCall, hEL, hELL,
    hBlk, hBlkL, hLet, hRet, hES, hStmt, hProgL⟩ := ih
  intro p hinv hfuel
  rcases expectPeek_cases .IDENT p with ⟨he1, hpt1⟩ | ⟨he1, hpt1⟩
  swap
  · refine ⟨none, peekError .IDENT p, ?_, hinv, ?_⟩
    · simp only [parseLetStatement, he1]
    · have : mu (peekError .IDENT p) = mu p := rfl
      omega
  · have hcur : p.curToken.type ≠ .EOF := cur_ne_eof_of_peek hinv (by rw [hpt1]; simp)
    have hlt1 := mu_nextToken_lt hinv hcur
    have hinv1 := inv_nextToken hinv
    rcases expectPeek_cases .ASSIGN (nextToken p) with ⟨he2, hpt2⟩ | ⟨he2, hpt2⟩
    swap
    · refine ⟨none, peekError .ASSIGN (nextToken p), ?_, hinv1, ?_⟩
      · simp only [parseLetStatement, he1, he2]
      · have : mu (peekError .ASSIGN (nextToken p)) = mu (nextToken p) := rfl
        omega
    · have hp1ne : (nextToken p).curToken.type ≠ .EOF := by simp [nextToken, hpt1]
      have hlt2 := mu_nextToken_lt hinv1 hp1ne
      have hinv2 := inv_nextToken hinv1
      have hp2ne : (nextToken (nextToken p)).curToken.type ≠ .EOF := by
        have h5 := hpt2
        simp only [nextToken, List.headD_eq_head?_getD] at h5 ⊢
        simp [h5]
      have hlt3 := mu_nextToken_lt hinv2 hp2ne
      obtain ⟨value, p4, hx, hinv4, hmu4⟩ :=
        hPE (nextToken (nextToken (nextToken p))) LOWEST (inv_nextToken hinv2) (by omega)
      refine ⟨some (.letStatement p.curToken
          ⟨(nextToken p).curToken, (nextToken p).curToken.literal⟩ value),
        if p4.peekToken.type = .SEMICOLON then nextToken p4 else p4, ?_, ?_, ?_⟩
      · simp only [parseLetStatement, he1, he2, hx]
      · split
        · exact inv_nextToken hinv4
        · exact hinv4
      · have := mu_nextToken_le hinv4
        split <;> omega

theorem c4ret_step (n : Nat) (ih : C4All n) : C4Ret (n + 1) := by
  obtain ⟨hPE, hLoop, hPfx, hInfx, hGrp, hIf, hFn, hFnP, hFnPL, hCall, hEL, hELL,
    hBlk, hBlkL, hLet, hRet, hES, hStmt, hProgL⟩ := ih
  intro p hinv hfuel
  have hle1 := mu_nextToken_le hinv
  obtain ⟨rv, p2, hx, hinv2, hmu2⟩ :=
    hPE (nextToken p) LOWEST (inv_nextToken hinv) (by omega)
  refine ⟨some (.returnStatement p.curToken rv),
    if p2.peekToken.type = .SEMICOLON then nextToken p2 else p2, ?_, ?_, ?_⟩
  · simp only [parseReturnStatement, hx]
  · split
    · exact inv_nextToken hinv2
    · exact hinv2
  · have := mu_nextToken_le hinv2
    split <;> omega

theorem c4es_step (n : Nat) (ih : C4All n) : C4ES (n + 1) := by
  obtain ⟨hPE, hLoop, hPfx, hInfx, hGrp, hIf, hFn, hFnP, hFnPL, hCall, hEL, hELL,
    hBlk, hBlkL, hLet, hRet, hES, hStmt, hProgL⟩ := ih
  intro p hinv hfuel
  obtain ⟨e, p1, hx, hinv1, hmu1⟩ := hPE p LOWEST hinv (by omega)
  refine ⟨some (.expressionStatement p.curToken e),
    if p1.peekToken.type = .SEMICOLON then nextToken p1 else p1, ?_, ?_, ?_⟩
  · simp only [parseExpressionStatement, hx]
  · split
    · exact inv_nextToken hinv1
    · exact hinv1
  · have := mu_nextToken_le hinv1
    split <;> omega

theorem c4stmt_step (n : Nat) (ih : C4All n) : C4Stmt (n + 1) := by
  have ihc := ih
  obtain ⟨hPE, hLoop, hPfx, hInfx, hGrp, hIf, hFn, hFnP, hFnPL, hCall, hEL, hELL,
    hBlk, hBlkL, hLet, hRet, hES, hStmt, hProgL⟩ := ihc
  intro p hinv hfuel
  by_cases t1 : p.curToken.type = .LET
  · obtain ⟨r, p', hrec, hinv', hmu'⟩ := hLet p hinv (by omega)
    exact ⟨r, p', by rw [parseStatement, if_pos t1]; exact hrec, hinv', hmu'⟩
  · by_cases t2 : p.curToken.type = .RETURN
    · obtain ⟨r, p', hrec, hinv', hmu'⟩ := hRet p hinv (by omega)
      exact ⟨r, p', by rw [parseStatement, if_neg t1, if_pos t2]; exact hrec, hinv', hmu'⟩
    · obtain ⟨r, p', hrec, hinv', hmu'⟩ := hES p hinv (by omega)
      exact ⟨r, p', by rw [parseStatement, if_neg t1, if_neg t2]; exact hrec, hinv', hmu'⟩

theorem c4blk_step (n : Nat) (ih : C4All n) : C4Blk (n + 1) := by
  obtain ⟨hPE, hLoop, hPfx, hInfx, hGrp, hIf, hFn, hFnP, hFnPL, hCall, hEL, hELL,
    hBlk, hBlkL, hLet, hRet, hES, hStmt, hProgL⟩ := ih
  intro p hinv hcur hfuel
  have hlt := mu_nextToken_lt hinv hcur
  obtain ⟨stmts, p2, hrec, hinv2, hmu2⟩ := hBlkL (nextToken p) [] (inv_nextToken hinv) (by omega)
  refine ⟨.mk p.curToken stmts, p2, ?_, hinv2, by omega⟩
  simp only [parseBlockStatement, hrec]

theorem c4blkl_step (n : Nat) (ih : C4All n) : C4BlkL (n + 1) := by
  obtain ⟨hPE, hLoop, hPfx, hInfx, hGrp, hIf, hFn, hFnP, hFnPL, hCall, hEL, hELL,
    hBlk, hBlkL, hLet, hRet, hES, hStmt, hProgL⟩ := ih
  intro p acc hinv hfuel
  by_cases hc : p.curToken.type ≠ .RBRACE ∧ p.curToken.type ≠ .EOF
  · obtain ⟨stmt, p1, hx, hinv1, hmu1⟩ := hStmt p hinv (by omega)
    cases stmt with
    | none =>
      by_cases hce : p1.curToken.type = .EOF
      · obtain ⟨m, rfl⟩ : ∃ m, n = m + 1 := ⟨n - 1, by omega⟩
        have hc2 : (nextToken p1).curToken.type = .EOF := nextToken_cur_eof hinv1 hce
        refine ⟨acc, nextToken p1, ?_, inv_nextToken hinv1, ?_⟩
        · rw [parseBlockLoop, if_pos hc]
          simp only [hx]
          rw [parseBlockLoop, if_neg (by simp [hc2])]
        · have := mu_nextToken_le hinv1
          omega
      · have hlt2 := mu_nextToken_lt hinv1 hce
        obtain ⟨r, p', hrec, hinv', hmu'⟩ := hBlkL (nextToken p1) acc (inv_nextToken hinv1) (by omega)
        refine ⟨r, p', ?_, hinv', by omega⟩
        rw [parseBlockLoop, if_pos hc]
        simp only [hx, hrec]
    | some s =>
      by_cases hce : p1.curToken.type = .EOF
      · obtain ⟨m, rfl⟩ : ∃ m, n = m + 1 := ⟨n - 1, by omega⟩
        have hc2 : (nextToken p1).curToken.type = .EOF := nextToken_cur_eof hinv1 hce
        refine ⟨acc ++ [s], nextToken p1, ?_, inv_nextToken hinv1, ?_⟩
        · rw [parseBlockLoop, if_pos hc]
          simp only [hx]
          rw [parseBlockLoop, if_neg (by simp [hc2])]
        · have := mu_nextToken_le hinv1
          omega
      · have hlt2 := mu_nextToken_lt hinv1 hce
        obtain ⟨r, p', hrec, hinv', hmu'⟩ :=
          hBlkL (nextToken p1) (acc ++ [s]) (inv_nextToken hinv1) (by omega)
        refine ⟨r, p', ?_, hinv', by omega⟩
        rw [parseBlockLoop, if_pos hc]
        simp only [hx, hrec]
  · refine ⟨acc, p, ?_, hinv, Nat.le.refl⟩
    rw [parseBlockLoop, if_neg hc]

theorem c4progl_step (n : Nat) (ih : C4All n) : C4ProgL (n + 1) := by
  obtain ⟨hPE, hLoop, hPfx, hInfx, hGrp, hIf, hFn, hFnP, hFnPL, hCall, hEL, hELL,
    hBlk, hBlkL, hLet, hRet, hES, hStmt, hProgL⟩ := ih
  intro p acc hinv hfuel
  by_cases hc : p.curToken.type ≠ .EOF
  · obtain ⟨stmt, p1, hx, hinv1, hmu1⟩ := hStmt p hinv (by omega)
    cases stmt with
    | none =>
      by_cases hce : p1.curToken.type = .EOF
      · obtain ⟨m, rfl⟩ : ∃ m, n = m + 1 := ⟨n - 1, by omega⟩
        have hc2 : (nextToken p1).curToken.type = .EOF := nextToken_cur_eof hinv1 hce
        refine ⟨acc, nextToken p1, ?_, inv_nextToken hinv1, ?_⟩
        · rw [parseProgramLoop, if_pos hc]
          simp only [hx]
          rw [parseProgramLoop, if_neg (by simp [hc2])]
        · have := mu_nextToken_le hinv1
          omega
      · have hlt2 := mu_nextToken_lt hinv1 hce
        obtain ⟨r, p', hrec, hinv', hmu'⟩ := hProgL (nextToken p1) acc (inv_nextToken hinv1) (by omega)
        refine ⟨r, p', ?_, hinv', by omega⟩
        rw [parseProgramLoop, if_pos hc]
        simp only [hx, hrec]
    | some s =>
      by_cases hce : p1.curToken.type = .EOF
      · obtain ⟨m, rfl⟩ : ∃ m, n = m + 1 := ⟨n - 1, by omega⟩
        have hc2 : (nextToken p1).curToken.type = .EOF := nextToken_cur_eof hinv1 hce
        refine ⟨acc ++ [s], nextToken p1, ?_, inv_nextToken hinv1, ?_⟩
        · rw [parseProgramLoop, if_pos hc]
          simp only [hx]
          rw [parseProgramLoop, if_neg (by simp [hc2])]
        · have := mu_nextToken_le hinv1
          omega
      · have hlt2 := mu_nextToken_lt hinv1 hce
        obtain ⟨r, p', hrec, hinv', hmu'⟩ :=
          hProgL (nextToken p1) (acc ++ [s]) (inv_nextToken hinv1) (by omega)
        refine ⟨r, p', ?_, hinv', by omega⟩
        rw [parseProgramLoop, if_pos hc]
        simp only [hx, hrec]
  · refine ⟨acc, p, ?_, hinv, Nat.le.refl⟩
    rw [parseProgramLoop, if_neg hc]

theorem c4fn_step (n : Nat) (ih : C4All n) : C4Fn (n + 1) := by
  obtain ⟨hPE, hLoop, hPfx, hInfx, hGrp, hIf, hFn, hFnP, hFnPL, hCall, hEL, hELL,
    hBlk, hBlkL, hLet, hRet, hES, hStmt, hProgL⟩ := ih
  intro p hinv hfuel
  rcases expectPeek_cases .LPAREN p with ⟨he1, hpt1⟩ | ⟨he1, hpt1⟩
  swap
  · refine ⟨none, peekError .LPAREN p, ?_, hinv, ?_⟩
    · simp only [parseFunctionLiteral, he1]
    · have : mu (peekError .LPAREN p) = mu p := rfl
      omega
  · have hcur := cur_ne_eof_of_peek hinv (by rw [hpt1]; simp)
    have hlt1 := mu_nextToken_lt hinv hcur
    have hinv1 := inv_nextToken hinv
    have hp1cur : (nextToken p).curToken.type ≠ .EOF := by simp [nextToken, hpt1]
    obtain ⟨params, p2, hx1, hinv2, hmu2⟩ := hFnP (nextToken p) hinv1 hp1cur (by omega)
    rcases expectPeek_cases .LBRACE p2 with ⟨he2, hpt2⟩ | ⟨he2, hpt2⟩
    swap
    · refine ⟨none, peekError .LBRACE p2, ?_, hinv2, ?_⟩
      · simp only [parseFunctionLiteral, he1, hx1, he2]
      · have : mu (peekError .LBRACE p2) = mu p2 := rfl
        omega
    · have hp2cur : (nextToken p2).curToken.type ≠ .EOF := by simp [nextToken, hpt2]
      have hle2 := mu_nextToken_le hinv2
      obtain ⟨body, p4, hx2, hinv4, hmu4⟩ :=
        hBlk (nextToken p2) (inv_nextToken hinv2) hp2cur (by omega)
      refine ⟨some (.functionLiteral p.curToken params body), p4, ?_, hinv4, by omega⟩
      simp only [parseFunctionLiteral, he1, hx1, he2, hx2]

theorem c4if_step (n : Nat) (ih : C4All n) : C4If (n + 1) := by
  obtain ⟨hPE, hLoop, hPfx, hInfx, hGrp, hIf, hFn, hFnP, hFnPL, hCall, hEL, hELL,
    hBlk, hBlkL, hLet, hRet, hES, hStmt, hProgL⟩ := ih
  intro p hinv hfuel
  rcases expectPeek_cases .LPAREN p with ⟨he1, hpt1⟩ | ⟨he1, hpt1⟩
  swap
  · refine ⟨none, peekError .LPAREN p, ?_, hinv, ?_⟩
    · simp only [parseIfExpression, he1]
    · have : mu (peekError .LPAREN p) = mu p := rfl
      omega
  · have hcur := cur_ne_eof_of_peek hinv (by rw [hpt1]; simp)
    have hlt1 := mu_nextToken_lt hinv hcur
    have hinv1 := inv_nextToken hinv
    have hp1cur : (nextToken p).curToken.type ≠ .EOF := by simp [nextToken, hpt1]
    have hlt2 := mu_nextToken_lt hinv1 hp1cur
    obtain ⟨cond, p3, hx1, hinv3, hmu3⟩ :=
      hPE (nextToken (nextToken p)) LOWEST (inv_nextToken hinv1) (by omega)
    rcases expectPeek_cases .RPAREN p3 with ⟨he2, hpt2⟩ | ⟨he2, hpt2⟩
    swap
    · refine ⟨none, peekError .RPAREN p3, ?_, hinv3, ?_⟩
      · simp only [parseIfExpression, he1, hx1, he2]
      · have : mu (peekError .RPAREN p3) = mu p3 := rfl
        omega
    · rcases expectPeek_cases .LBRACE (nextToken p3) with ⟨he3, hpt3⟩ | ⟨he3, hpt3⟩
      swap
      · refine ⟨none, peekError .LBRACE (nextToken p3), ?_, inv_nextToken hinv3, ?_⟩
        · simp only [parseIfExpression, he1, hx1, he2, he3]
        · have h8 := mu_nextToken_le hinv3
          have : mu (peekError .LBRACE (nextToken p3)) = mu (nextToken p3) := rfl
          omega
      · have hp5cur : (nextToken (nextToken p3)).curToken.type ≠ .EOF := by
          have h5 := hpt3
          simp only [nextToken, List.headD_eq_head?_getD] at h5 ⊢
          simp [h5]
        have hle3 := mu_nextToken_le hinv3
        have hle4 := mu_nextToken_le (inv_nextToken hinv3)
        obtain ⟨cons, p6, hx2, hinv6, hmu6⟩ :=
          hBlk (nextToken (nextToken p3)) (inv_nextToken (inv_nextToken hinv3)) hp5cur (by omega)
        by_cases hel : p6.peekToken.type = .ELSE
        · rcases expectPeek_cases .LBRACE (nextToken p6) with ⟨he4, hpt4⟩ | ⟨he4, hpt4⟩
          swap
          · refine ⟨none, peekError .LBRACE (nextToken p6), ?_, inv_nextToken hinv6, ?_⟩
            · simp only [parseIfExpression, he1, hx1, he2, he3, hx2, if_pos hel, he4]
            · have h9 := mu_nextToken_le hinv6
              have : mu (peekError .LBRACE (nextToken p6)) = mu (nextToken p6) := rfl
              omega
          · have hp8cur : (nextToken (nextToken p6)).curToken.type ≠ .EOF := by
              have h5 := hpt4
              simp only [nextToken, List.headD_eq_head?_getD] at h5 ⊢
              simp [h5]
            have hle5 := mu_nextToken_le hinv6
            have hle6 := mu_nextToken_le (inv_nextToken hinv6)
            obtain ⟨alt, p9, hx3, hinv9, hmu9⟩ :=
              hBlk (nextToken (nextToken p6)) (inv_nextToken (inv_nextToken hinv6)) hp8cur
                (by omega)
            refine ⟨some (.ifExpression p.curToken cond cons (some alt)), p9, ?_, hinv9,
              by omega⟩
            simp only [parseIfExpression, he1, hx1, he2, he3, hx2, if_pos hel, he4, hx3]
        · refine ⟨some (.ifExpression p.curToken cond cons none), p6, ?_, hinv6, by omega⟩
          simp only [parseIfExpression, he1, hx1, he2, he3, hx2, if_neg hel]

theorem c4_all : ∀ fuel, C4All fuel := by
  intro fuel
  induction fuel with
  | zero => exact c4_zero
  | succ n ih =>
    exact ⟨c4pe_step n ih, c4loop_step n ih, c4pfx_step n ih, c4infx_step n ih,
      c4grp_step n ih, c4if_step n ih, c4fn_step n ih, c4fnp_step n ih, c4fnpl_step n ih,
      c4call_step n ih, c4el_step n ih, c4ell_step n ih, c4blk_step n ih, c4blkl_step n ih,
      c4let_step n ih, c4ret_step n ih, c4es_step n ih, c4stmt_step n ih, c4progl_step n ih⟩

theorem inv_newParser (ts : List Token) (hts : ∀ t ∈ ts, t.type ≠ TokenType.EOF) :
    inv (newParser ts) := by
  rcases ts with - | ⟨a, ts1⟩
  · exact ⟨by simp [newParser, nextToken], fun _ => rfl, fun _ => rfl⟩
  · rcases ts1 with - | ⟨b, ts2⟩
    · refine ⟨by simp [newParser, nextToken], by simp [newParser, nextToken], ?_⟩
      intro hc
      exact absurd (by simpa [newParser, nextToken] using hc) (hts a (by simp))
    · refine ⟨?_, ?_, ?_⟩
      · intro t ht
        exact hts t (by simp [newParser, nextToken] at ht; simp [ht])
      · intro hpk
        exact absurd (by simpa [newParser, nextToken] using hpk) (hts b (by simp))
      · intro hc
        exact absurd (by simpa [newParser, nextToken] using hc) (hts a (by simp))

/-- C4: for every finite token stream that ends in EOF (and yields EOF on
every later call — here, any token list without interior EOF handed to
the implicitly EOF-padding token source), ParseProgram terminates: some
fuel makes every loop finish, because the top-level loop and every block
loop advance and stop at EOF (or the closing brace). -/
theorem parse_program_terminates (ts : List Token)
    (hts : ∀ t ∈ ts, t.type ≠ TokenType.EOF) :
    ∃ fuel, (parseProgram fuel ts).isSome := by
  obtain ⟨-, -, -, -, -, -, -, -, -, -, -, -, -, -, -, -, -, -, hProgL⟩ :=
    c4_all (10 * mu (newParser ts) + 7)
  obtain ⟨r, p', heval, -, -⟩ :=
    hProgL (newParser ts) [] (inv_newParser ts hts) (Nat.le_refl _)
  exact ⟨10 * mu (newParser ts) + 7,
    by simp [parseProgram, parseProgramWithState, heval]⟩

/-- Witness for C4: the one-token stream `a` (no interior EOF) has a
terminating parse. -/
theorem parse_program_terminates_witness :
    ∃ fuel, (parseProgram fuel [tk .IDENT "a"]).isSome :=
  parse_program_terminates [tk .IDENT "a"] (by decide)

end Monkey
